import Mathlib

/-!
Shallow embedding of the pipeline execution engine
(`src/execution_engine.py` of the smart-function-pipeline repository).

JSON-like runtime values are modelled by `Value` (Python `None` is
`Value.null`), Python dicts by insertion-ordered association lists, and
Python exceptions by `Except`.  The regular expressions of the source are
modelled character by character with ASCII digit / word-character
semantics.
-/

namespace Pipeline

/-- JSON-like runtime value; `null` models Python `None`. -/
inductive Value where
  | null : Value
  | bool (b : Bool) : Value
  | int (n : Int) : Value
  | str (s : String) : Value
  | list (xs : List Value) : Value
  | dict (fields : List (String × Value)) : Value

/-- `v.isNull` models the Python test `v is None`. -/
def Value.isNull : Value → Bool
  | .null => true
  | _ => false

/-- Keys of an insertion-ordered association list (a Python dict). -/
def keysOf (d : List (String × Value)) : List String := d.map (fun p => p.1)

/-- Python `k in d`. -/
def containsKey (d : List (String × Value)) (k : String) : Bool :=
  d.any (fun p => p.1 == k)

/-- Python `d.get(k)` / `d[k]`: the binding of the first (unique) entry with key `k`. -/
def alookup : List (String × Value) → String → Option Value
  | [], _ => none
  | (k', v) :: rest, k => if k' == k then some v else alookup rest k

/-- Python `d[k] = v`: replace in place if the key exists, else append. -/
def ainsert : List (String × Value) → String → Value → List (String × Value)
  | [], k, v => [(k, v)]
  | p :: rest, k, v => if p.1 == k then (k, v) :: rest else p :: ainsert rest k v

/-- `leadsWith pat l`: `pat` is a prefix of `l` (Python `str.startswith`). -/
def leadsWith : List Char → List Char → Bool
  | [], _ => true
  | _ :: _, [] => false
  | a :: as, b :: bs => a == b && leadsWith as bs

/-- ASCII decimal digit (models the regex class `\d`). -/
def isDig (c : Char) : Bool := '0' ≤ c && c ≤ '9'

/-- The decimal digit character for `n < 10`. -/
def digitChar : Nat → Char
  | 0 => '0' | 1 => '1' | 2 => '2' | 3 => '3' | 4 => '4'
  | 5 => '5' | 6 => '6' | 7 => '7' | 8 => '8' | _ => '9'

/-- Numeric value of a decimal digit character. -/
def digitVal (c : Char) : Nat := c.toNat - 48

/-- Value of a list of decimal digit characters (most significant first). -/
def digitsVal (l : List Char) : Nat := l.foldl (fun a c => 10 * a + digitVal c) 0

/-- Decimal digits of `n`, via structural fuel recursion. -/
def natDigitsF : Nat → Nat → List Char
  | 0, _ => []
  | fuel + 1, n => if n < 10 then [digitChar n] else natDigitsF fuel (n / 10) ++ [digitChar (n % 10)]

/-- Decimal digits of `n` (most significant first). -/
def natDigits (n : Nat) : List Char := natDigitsF (n + 1) n

/-- Python `str(n)` for a natural number. -/
def natStr (n : Nat) : String := String.mk (natDigits n)

/-- The store key `f"output_{i}"`. -/
def outKey (i : Nat) : String := "output_" ++ natStr i

/-- The characters of `"$output_"`, the common prefix of positional references. -/
def refPfx : List Char := "$output_".data

/-- The characters of `"output_"`, the store-key prefix. -/
def outPfx : List Char := "output_".data

/-- Python whitespace stripped by `str.strip()` (ASCII model). -/
def isPySpace (c : Char) : Bool :=
  c == ' ' || c == '\t' || c == '\n' || c == '\r' || c == '\x0b' || c == '\x0c'

/-- Python `str.strip()` on a character list. -/
def trimChars (cs : List Char) : List Char :=
  ((cs.dropWhile isPySpace).reverse.dropWhile isPySpace).reverse

/-- Python `s.split(sep)` for a one-character separator. -/
def splitOnC (sep : Char) : List Char → List (List Char)
  | [] => [[]]
  | c :: rest =>
    if c == sep then [] :: splitOnC sep rest
    else
      match splitOnC sep rest with
      | [] => [[c]]
      | h :: t => (c :: h) :: t

/-- Resolver failure, as raised by `_resolve_variable` / `_resolve_template_variable`. -/
inductive RErr where
  | invalidRef (v : String) : RErr
  | outputNotFound (key : String) : RErr
  | varNotFound (name : String) : RErr
  | notAContainer (field : String) : RErr
  | fieldNotFound (field : String) : RErr

/-- The message of the underlying `ValueError` for each resolver failure. -/
def RErr.msg : RErr → String
  | .invalidRef v => "Invalid variable reference: " ++ v
  | .outputNotFound key => "Output " ++ key ++ " not found"
  | .varNotFound name => "Variable '" ++ name ++ "' not found in output storage"
  | .notAContainer field => "Cannot access field '" ++ field ++ "' on non-dict data"
  | .fieldNotFound field => "Field '" ++ field ++ "' not found"

/-- The error kind, forgetting the embedded string. -/
def RErr.kind : RErr → Nat
  | .invalidRef _ => 0
  | .outputNotFound _ => 1
  | .varNotFound _ => 2
  | .notAContainer _ => 3
  | .fieldNotFound _ => 4

/-- Field-path navigation: for each segment require a dict, `get` the field,
and fail if the result is `None` (absent key or stored null). -/
def navigate : Value → List String → Except RErr Value
  | data, [] => .ok data
  | data, f :: fs =>
    match data with
    | .dict d =>
      match alookup d f with
      | none => .error (.fieldNotFound f)
      | some .null => .error (.fieldNotFound f)
      | some v => navigate v fs
    | _ => .error (.notAContainer f)

/-- Models `re.match(r'\$output_(\d+)(?:\.(.+))?', s)`: an (unanchored) prefix
match returning the numeric index and the optional field-path characters.
`.` in the regex does not match a newline, and trailing unmatched characters
are ignored. -/
def matchOutputRef (s : String) : Option (Nat × Option (List Char)) :=
  if leadsWith refPfx s.data then
    let r := s.data.drop 8
    let ds := r.takeWhile isDig
    let r2 := r.dropWhile isDig
    if ds.isEmpty then none
    else
      match r2 with
      | '.' :: rest =>
        let path := rest.takeWhile (fun c => !(c == '\n'))
        if path.isEmpty then some (digitsVal ds, none) else some (digitsVal ds, some path)
      | _ => some (digitsVal ds, none)
  else none

/-- `_resolve_variable`: resolve a positional reference such as `$output_0.invoices`
against the output store. -/
def resolveVariable (store : List (String × Value)) (s : String) : Except RErr Value :=
  match matchOutputRef s with
  | none => .error (.invalidRef s)
  | some (n, pathOpt) =>
    let key := outKey n
    match alookup store key with
    | none => .error (.outputNotFound key)
    | some data =>
      match pathOpt with
      | none => .ok data
      | some path => navigate data ((splitOnC '.' path).map String.mk)

/-- One per-step log entry of `execution_history`.  Failure records carry the
raw inputs and an error string; success records carry the resolved inputs,
the produced output and the declared `output_var`. -/
structure XRecord where
  step : Nat
  function : Option String
  inputs : List (String × Value)
  outputs : Value
  output_var : Option String
  error : Option String
  success : Bool

/-- Scan of `execution_history` for a successful step whose `output_var`
equals `name` (first match). -/
def histLookup : List XRecord → String → Option Value
  | [], _ => none
  | r :: rest, name =>
    if r.success && r.output_var == some name then some r.outputs
    else histLookup rest name

/-- The hardcoded legacy name mapping of `_resolve_template_variable`. -/
def varMapping (name : String) : Option String :=
  if name == "december_invoices" then some (outKey 0)
  else if name == "invoice_summary" then some (outKey 1)
  else if name == "high_value_invoices" then some (outKey 1)
  else none

/-- The value bound to a named (template) variable: direct store lookup, then
history scan, then the legacy mapping; `Value.null` plays the role of the
Python `None` sentinel throughout, exactly as in the source. -/
def templateData (store : List (String × Value)) (hist : List XRecord) (name : String) : Value :=
  match alookup store name with
  | some v => v
  | none =>
    let d1 : Value :=
      match histLookup hist name with
      | some v => v
      | none => .null
    if d1.isNull then
      match varMapping name with
      | some key =>
        match alookup store key with
        | some v => v
        | none => .null
      | none => .null
    else d1

/-- Resolution of a stripped template body: split on `.`, look the first
segment up and navigate the remaining field path. -/
def templResolve (store : List (String × Value)) (hist : List XRecord)
    (content : List Char) : Except RErr Value :=
  match splitOnC '.' content with
  | [] => .error (.varNotFound "")
  | vn :: fps =>
    let name := String.mk vn
    let data := templateData store hist name
    if data.isNull then .error (.varNotFound name)
    else navigate data (fps.map String.mk)

/-- `_resolve_template_variable`: strip the enclosing braces (`s[2:-2]`),
`strip()` whitespace, then resolve the body. -/
def resolveTemplateVariable (store : List (String × Value)) (hist : List XRecord)
    (s : String) : Except RErr Value :=
  templResolve store hist (trimChars ((s.data.drop 2).take ((s.data.drop 2).length - 2)))

/-- An opening brace character. -/
def obrace : Char := '\x7b'

/-- A closing brace character. -/
def cbrace : Char := '\x7d'

/-- Python `s.startswith("\x7b\x7b") and s.endswith("\x7d\x7d")`. -/
def templGuard (s : String) : Bool :=
  leadsWith [obrace, obrace] s.data && leadsWith [cbrace, cbrace] s.data.reverse

/-- The wrapper `ValueError` message of `_resolve_variable`. -/
def wrapVar (s : String) (e : RErr) : String :=
  "Error resolving variable " ++ s ++ ": " ++ e.msg

/-- The wrapper `ValueError` message of `_resolve_template_variable`. -/
def wrapTemplate (s : String) (e : RErr) : String :=
  "Error resolving template variable " ++ s ++ ": " ++ e.msg

/-- Resolution of one raw input value (`_resolve_inputs` loop body):
template references, then `$`-prefixed positional references, then literal
pass-through; non-strings pass through unchanged. -/
def resolveOne (store : List (String × Value)) (hist : List XRecord) (v : Value) :
    Except String Value :=
  match v with
  | .str s =>
    if templGuard s then
      match resolveTemplateVariable store hist s with
      | .ok v' => .ok v'
      | .error e => .error (wrapTemplate s e)
    else if leadsWith ['$'] s.data then
      match resolveVariable store s with
      | .ok v' => .ok v'
      | .error e => .error (wrapVar s e)
    else .ok (.str s)
  | other => .ok other

/-- `_resolve_inputs`: resolve every entry, propagating the first failure. -/
def resolveInputs (store : List (String × Value)) (hist : List XRecord) :
    List (String × Value) → Except String (List (String × Value))
  | [] => .ok []
  | (k, v) :: rest =>
    match resolveOne store hist v with
    | .error e => .error e
    | .ok v' =>
      match resolveInputs store hist rest with
      | .error e => .error e
      | .ok r => .ok ((k, v') :: r)

/-- One registered operation: description, input/output schemas (name → type
string, in registration order) and the callable, which may raise. -/
structure FuncEntry where
  descr : String
  inSchema : List (String × String)
  outSchema : List (String × String)
  impl : List (String × Value) → Except String Value

/-- The function registry (`FunctionLibrary`). -/
structure FunctionLibraryM where
  funcs : List (String × FuncEntry)

/-- Registry lookup by name. -/
def lookupFunc (lib : FunctionLibraryM) : String → Option FuncEntry :=
  fun name =>
    match lib.funcs.find? (fun p => p.1 == name) with
    | some p => some p.2
    | none => none

/-- `FunctionLibrary.execute_function`: raise if the name is unregistered
(the step's `function` key may be absent, Python `None`), else invoke. -/
def executeFunction (lib : FunctionLibraryM) (name : Option String)
    (inputs : List (String × Value)) : Except String Value :=
  match name with
  | none => .error "Function 'None' not found"
  | some n =>
    match lookupFunc lib n with
    | none => .error ("Function '" ++ n ++ "' not found")
    | some e => e.impl inputs

/-- One pipeline step, as the dict consumed by the engine: the three keys
read via `.get` are each optional. -/
structure Step where
  function : Option String
  inputs : Option (List (String × Value))
  output_var : Option String

/-- Mutable instance state of `ExecutionEngine`. -/
structure EngineState where
  execution_history : List XRecord
  output_storage : List (String × Value)

/-- The storage writes of a successful step: `output_i`, then the alias when
it is truthy. -/
def storeWrite (S : List (String × Value)) (i : Nat) (ov : Option String)
    (result : Value) : List (String × Value) :=
  match ov with
  | some a => if a == "" then ainsert S (outKey i) result
              else ainsert (ainsert S (outKey i) result) a result
  | none => ainsert S (outKey i) result

/-- `_execute_step`: resolve inputs, invoke, store `output_i` plus the
truthy alias, and log; on any failure log the raw inputs and the error. -/
def executeStep (lib : FunctionLibraryM) (i : Nat) (c : Step) (st : EngineState) :
    Option String × EngineState :=
  let raw := c.inputs.getD []
  match resolveInputs st.output_storage st.execution_history raw with
  | .error e =>
    (some e, ⟨st.execution_history ++ [⟨i, c.function, raw, .null, none, some e, false⟩],
      st.output_storage⟩)
  | .ok resolved =>
    match executeFunction lib c.function resolved with
    | .error e =>
      (some e, ⟨st.execution_history ++ [⟨i, c.function, raw, .null, none, some e, false⟩],
        st.output_storage⟩)
    | .ok result =>
      (none, ⟨st.execution_history ++
        [⟨i, c.function, resolved, result, c.output_var, none, true⟩],
        storeWrite st.output_storage i c.output_var result⟩)

/-- The step loop of `execute_pipeline`: run steps in order from index `i`,
stopping at the first failure and reporting its index and error. -/
def runSteps (lib : FunctionLibraryM) :
    List Step → Nat → EngineState → Option (Nat × String) × EngineState
  | [], _, st => (none, st)
  | c :: rest, i, st =>
    match executeStep lib i c st with
    | (none, st') => runSteps lib rest (i + 1) st'
    | (some e, st') => (some (i, e), st')

/-- The structured result returned by `execute_pipeline`.  On success
`error`/`failed_step` are absent; on failure `final_output` is absent
(modelled as `null`). -/
structure PipelineResult where
  success : Bool
  final_output : Value
  error : Option String
  failed_step : Option Int
  execution_history : List XRecord
  outputs : List (String × Value)

/-- Python `int(s)` on the second part of `k.split('_')`, used to rank
`output_*` keys; `none` models the raised `ValueError`/`IndexError`. -/
def keyIdx (s : String) : Option Int :=
  match (splitOnC '_' s.data).get? 1 with
  | none => none
  | some part =>
    let t := trimChars part
    match t with
    | [] => none
    | c :: r =>
      if c == '+' then
        if r ≠ [] && r.all isDig then some (Int.ofNat (digitsVal r)) else none
      else if c == '-' then
        if r ≠ [] && r.all isDig then some (-(Int.ofNat (digitsVal r))) else none
      else if (c :: r).all isDig then some (Int.ofNat (digitsVal (c :: r))) else none

/-- Rank every key via `keyIdx`, failing (as Python `max(..., key=int ...)`
does) at the first key whose suffix is not an integer literal. -/
def keyIdxPairs : List String → Except String (List (String × Int))
  | [] => .ok []
  | k :: r =>
    match keyIdx k with
    | none => .error ("invalid literal for int() with base 10: " ++ k)
    | some v =>
      match keyIdxPairs r with
      | .error e => .error e
      | .ok t => .ok ((k, v) :: t)

/-- Python `max` with a key function: keep the current maximum, first wins on ties. -/
def pickMax (best : String × Int) : List (String × Int) → String × Int
  | [] => best
  | p :: rest => pickMax (if best.2 < p.2 then p else best) rest

/-- The `output_*`-prefixed keys of a store, in insertion order. -/
def filtKeys (S : List (String × Value)) : List String :=
  (keysOf S).filter (fun k => leadsWith outPfx k.data)

/-- `_create_success_result`: select the `output_*` key with the numerically
highest suffix as `final_output`; an unparsable suffix raises. -/
def createSuccessResult (st : EngineState) : Except String PipelineResult :=
  match keyIdxPairs (filtKeys st.output_storage) with
  | .error e => .error e
  | .ok [] => .ok ⟨true, .null, none, none, st.execution_history, st.output_storage⟩
  | .ok (p :: ps) =>
    let best := pickMax p ps
    .ok ⟨true, (alookup st.output_storage best.1).getD .null, none, none,
      st.execution_history, st.output_storage⟩

/-- `_create_error_result`. -/
def mkError (msg : String) (failedStep : Int) (st : EngineState) : PipelineResult :=
  ⟨false, .null, some msg, some failedStep, st.execution_history, st.output_storage⟩

/-- `execute_pipeline` as a state transformer on the engine instance: reset
the per-run state, run the steps, and aggregate; an escaped exception while
aggregating is caught with `failed_step = -1`. -/
def executePipeline (lib : FunctionLibraryM) (calls : List Step) (_st : EngineState) :
    PipelineResult × EngineState :=
  let st0 : EngineState := ⟨[], []⟩
  match runSteps lib calls 0 st0 with
  | (some (i, err), st') => (mkError err (Int.ofNat i) st', st')
  | (none, st') =>
    match createSuccessResult st' with
    | .ok r => (r, st')
    | .error e => (mkError ("Pipeline execution failed: " ++ e) (-1) st', st')

/-- `validate_function_calls` from step index `i` on. -/
def validateFrom (lib : FunctionLibraryM) : List Step → Nat → Bool × String
  | [], _ => (true, "Validation passed")
  | c :: rest, i =>
    match c.function with
    | none => (false, "Step " ++ natStr i ++ ": Missing function name")
    | some fn =>
      if fn == "" then (false, "Step " ++ natStr i ++ ": Missing function name")
      else
        match lookupFunc lib fn with
        | none => (false, "Step " ++ natStr i ++ ": Function '" ++ fn ++ "' not found")
        | some e =>
          match e.inSchema.find? (fun p => !containsKey (c.inputs.getD []) p.1) with
          | some p =>
            (false, "Step " ++ natStr i ++ ": Missing required parameter '" ++ p.1 ++
              "' for function '" ++ fn ++ "'")
          | none => validateFrom lib rest (i + 1)

/-- `validate_function_calls`. -/
def validateFunctionCalls (lib : FunctionLibraryM) (calls : List Step) : Bool × String :=
  validateFrom lib calls 0

/-- One entry of the dry-run execution plan. -/
structure PlanStep where
  step : Nat
  function : String
  inputs : List (String × Value)
  descr : String

/-- The structured dry-run report. -/
inductive DryRunOut where
  | invalid (error : String) (calls : List Step) : DryRunOut
  | valid (message : String) (plan : List PlanStep) (total : Nat) : DryRunOut

/-- The plan-building loop of `dry_run`; the subscript accesses
`call["function"]` / `call["inputs"]` raise `KeyError` (modelled as
`Except.error`) when the key is absent. -/
def buildPlan (lib : FunctionLibraryM) : List Step → Nat → Except String (List PlanStep)
  | [], _ => .ok []
  | c :: rest, i =>
    match c.function with
    | none => .error "KeyError: 'function'"
    | some fn =>
      match lookupFunc lib fn with
      | none => .error ("KeyError: '" ++ fn ++ "'")
      | some e =>
        match c.inputs with
        | none => .error "KeyError: 'inputs'"
        | some inp =>
          match buildPlan lib rest (i + 1) with
          | .error err => .error err
          | .ok t => .ok (⟨i, fn, inp, e.descr⟩ :: t)

/-- `dry_run`: validate, and on success materialize the plan; a raised
`KeyError` escapes to the caller as `Except.error`. -/
def dryRun (lib : FunctionLibraryM) (calls : List Step) : Except String DryRunOut :=
  let v := validateFunctionCalls lib calls
  if v.1 then
    match buildPlan lib calls 0 with
    | .error e => .error e
    | .ok plan =>
      .ok (.valid "Pipeline is valid and ready for execution" plan calls.length)
  else .ok (.invalid v.2 calls)

/-- `Except` success test. -/
def exceptOk {α : Type} : Except String α → Bool
  | .ok _ => true
  | .error _ => false

/-- ASCII word character (models the regex class `\w`). -/
def wordChar (c : Char) : Bool := c.isAlphanum || c == '_'

/-- Anchored-pattern matcher, following the spec's words: the full-string
regex `^\$output_(\d+)(\.\w[\w.]*)?$`. -/
def ancMatch (s : String) : Bool :=
  leadsWith refPfx s.data &&
  (let r := s.data.drop 8
   let ds := r.takeWhile isDig
   let rest := r.dropWhile isDig
   !ds.isEmpty &&
   (rest.isEmpty ||
     (match rest with
      | '.' :: c :: t => wordChar c && t.all (fun ch => wordChar ch || ch == '.')
      | _ => false)))

/-- The step's effective alias (if truthy) does not begin with `output_`. -/
def aliasOK (c : Step) : Bool :=
  match c.output_var with
  | some a => a == "" || !(leadsWith outPfx a.data)
  | none => true

/-- The truthy aliases declared by a step list, in order. -/
def aliasesOf (steps : List Step) : List String :=
  steps.filterMap (fun c =>
    match c.output_var with
    | some a => if a == "" then none else some a
    | none => none)

/-- `[s, s+1, ..., s+n-1]`. -/
def natRange : Nat → Nat → List Nat
  | _, 0 => []
  | s, n + 1 => s :: natRange (s + 1) n

/-- The engine state after running the first `m` steps of a pipeline
from a fresh per-run state. -/
def stateAfter (lib : FunctionLibraryM) (steps : List Step) (m : Nat) : EngineState :=
  (runSteps lib (steps.take m) 0 ⟨[], []⟩).2

/-- The same registry with every callable replaced, keeping all metadata. -/
def withImpls (lib : FunctionLibraryM)
    (f : String → List (String × Value) → Except String Value) : FunctionLibraryM :=
  ⟨lib.funcs.map (fun p => (p.1, ⟨p.2.descr, p.2.inSchema, p.2.outSchema, f p.1⟩))⟩

/-- A step passes validation: truthy registered operation name and every
schema input name present among the step's inputs. -/
def stepOkB (lib : FunctionLibraryM) (c : Step) : Bool :=
  match c.function with
  | none => false
  | some fn =>
    !(fn == "") &&
    (match lookupFunc lib fn with
     | none => false
     | some e => e.inSchema.all (fun p => containsKey (c.inputs.getD []) p.1))

/-- The index-qualified message produced for the first violating step. -/
def stepErrMsg (lib : FunctionLibraryM) (i : Nat) (c : Step) : String :=
  match c.function with
  | none => "Step " ++ natStr i ++ ": Missing function name"
  | some fn =>
    if fn == "" then "Step " ++ natStr i ++ ": Missing function name"
    else
      match lookupFunc lib fn with
      | none => "Step " ++ natStr i ++ ": Function '" ++ fn ++ "' not found"
      | some e =>
        match e.inSchema.find? (fun p => !containsKey (c.inputs.getD []) p.1) with
        | some p =>
          "Step " ++ natStr i ++ ": Missing required parameter '" ++ p.1 ++
            "' for function '" ++ fn ++ "'"
        | none => ""

/-- A small concrete registry used by concrete counterexamples and witnesses:
two pure constant operations, one operation with no inputs, and one
operation requiring an input named `x`. -/
def exLib : FunctionLibraryM :=
  ⟨[("f1", ⟨"returns one", [], [], fun _ => .ok (.int 1)⟩),
    ("f2", ⟨"returns two", [], [], fun _ => .ok (.int 2)⟩),
    ("noop", ⟨"does nothing", [], [], fun _ => .ok (.dict [])⟩),
    ("bar", ⟨"needs x", [("x", "str")], [], fun _ => .ok .null⟩)]⟩

/-- A step invoking `f1` with alias `x`. -/
def exStepX1 : Step := ⟨some "f1", some [], some "x"⟩

/-- A step invoking `f2` with alias `x`. -/
def exStepX2 : Step := ⟨some "f2", some [], some "x"⟩

/-- A concrete store binding both `output_0` and the alias `x` to the same
dict value. -/
def exStore7 : List (String × Value) :=
  [("output_0", .dict [("total", .int 5)]), ("x", .dict [("total", .int 5)])]

end Pipeline

namespace Pipeline

theorem alookup_append_left {d e : List (String × Value)} {k : String} {v : Value}
    (h : alookup d k = some v) : alookup (d ++ e) k = some v := by
  induction d with
  | nil => simp [alookup] at h
  | cons p rest ih =>
    obtain ⟨k', v'⟩ := p
    rcases hk : (k' == k) with _ | _
    · rw [alookup, hk] at h
      simp only [Bool.false_eq_true, if_false] at h
      simp only [List.cons_append, alookup, hk, Bool.false_eq_true, if_false]
      exact ih h
    · rw [alookup, hk] at h
      simp only [if_true] at h
      simp [List.cons_append, alookup, hk, h]

theorem containsKey_iff {d : List (String × Value)} {k : String} :
    containsKey d k = true ↔ k ∈ keysOf d := by
  induction d with
  | nil => simp [containsKey, keysOf]
  | cons p rest ih =>
    obtain ⟨k', v'⟩ := p
    simp only [containsKey, List.any_cons, Bool.or_eq_true, keysOf, List.map_cons,
      List.mem_cons]
    rw [containsKey] at ih
    constructor
    · rintro (h | h)
      · exact Or.inl (beq_iff_eq.mp h).symm
      · exact Or.inr (ih.mp h)
    · rintro (h | h)
      · exact Or.inl (beq_iff_eq.mpr h.symm)
      · exact Or.inr (ih.mpr h)

theorem alookup_eq_none_iff {d : List (String × Value)} {k : String} :
    alookup d k = none ↔ containsKey d k = false := by
  induction d with
  | nil => simp [alookup, containsKey]
  | cons p rest ih =>
    obtain ⟨k', v'⟩ := p
    by_cases hk : k' = k
    · have hb : (k' == k) = true := beq_iff_eq.mpr hk
      simp [alookup, containsKey, hb]
    · have hb : (k' == k) = false := beq_eq_false_iff_ne.mpr hk
      simp only [alookup, hb, if_false, containsKey, List.any_cons, Bool.false_or]
      exact ih

theorem alookup_of_containsKey {d : List (String × Value)} {k : String}
    (h : containsKey d k = true) : ∃ v, alookup d k = some v := by
  rcases he : alookup d k with _ | v
  · rw [alookup_eq_none_iff] at he; rw [he] at h; cases h
  · exact ⟨v, rfl⟩

theorem keysOf_append (d e : List (String × Value)) :
    keysOf (d ++ e) = keysOf d ++ keysOf e := by
  simp [keysOf]

theorem keysOf_ainsert_contains {d : List (String × Value)} {k : String} {v : Value}
    (h : containsKey d k = true) : keysOf (ainsert d k v) = keysOf d := by
  induction d with
  | nil => simp [containsKey] at h
  | cons p rest ih =>
    obtain ⟨k', v'⟩ := p
    rcases hk : (k' == k) with _ | _
    · have hrest : containsKey rest k = true := by
        simp only [containsKey, List.any_cons, hk, Bool.false_or] at h
        exact h
      simp only [ainsert, hk, Bool.false_eq_true, if_false, keysOf, List.map_cons]
      rw [keysOf] at ih
      simp [ih hrest, keysOf]
    · have hk' : k' = k := beq_iff_eq.mp hk
      simp [ainsert, hk, keysOf, hk']

theorem keysOf_ainsert_fresh {d : List (String × Value)} {k : String} {v : Value}
    (h : containsKey d k = false) : keysOf (ainsert d k v) = keysOf d ++ [k] := by
  induction d with
  | nil => simp [ainsert, keysOf]
  | cons p rest ih =>
    obtain ⟨k', v'⟩ := p
    simp only [containsKey, List.any_cons, Bool.or_eq_false_iff] at h
    simp only [ainsert, h.1, Bool.false_eq_true, if_false, keysOf, List.map_cons]
    rw [keysOf] at ih
    simp [ih (by rw [containsKey]; exact h.2), keysOf]

theorem alookup_ainsert_self (d : List (String × Value)) (k : String) (v : Value) :
    alookup (ainsert d k v) k = some v := by
  induction d with
  | nil => simp [ainsert, alookup]
  | cons p rest ih =>
    obtain ⟨k', v'⟩ := p
    rcases hk : (k' == k) with _ | _
    · simp only [ainsert, hk, Bool.false_eq_true, if_false, alookup]
      simp [hk, ih]
    · simp [ainsert, hk, alookup]

theorem alookup_ainsert_ne {d : List (String × Value)} {k k' : String} {v : Value}
    (hne : k' ≠ k) : alookup (ainsert d k v) k' = alookup d k' := by
  have hkk : (k == k') = false := beq_eq_false_iff_ne.mpr (fun h => hne h.symm)
  induction d with
  | nil => simp [ainsert, alookup, hkk]
  | cons p rest ih =>
    obtain ⟨a, b⟩ := p
    rcases hak : (a == k) with _ | _
    · simp only [ainsert, hak, Bool.false_eq_true, if_false, alookup]
      rcases hak' : (a == k') with _ | _
      · simp only [Bool.false_eq_true, if_false]
        exact ih
      · simp
    · have ha : a = k := beq_iff_eq.mp hak
      have hak' : (a == k') = false := by rw [ha]; exact hkk
      simp only [ainsert, hak, if_true, alookup, hkk, hak', Bool.false_eq_true, if_false]

theorem leadsWith_iff {p l : List Char} : leadsWith p l = true ↔ ∃ t, l = p ++ t := by
  induction p generalizing l with
  | nil => simp [leadsWith]
  | cons a as ih =>
    cases l with
    | nil =>
      simp only [leadsWith, List.append_eq]
      constructor
      · intro h; cases h
      · rintro ⟨t, ht⟩; cases ht
    | cons b bs =>
      simp only [leadsWith, Bool.and_eq_true, beq_iff_eq, ih]
      constructor
      · rintro ⟨rfl, t, rfl⟩; exact ⟨t, rfl⟩
      · rintro ⟨t, ht⟩
        injection ht with h1 h2
        exact ⟨h1.symm, t, h2⟩

theorem leadsWith_refl_append (p t : List Char) : leadsWith p (p ++ t) = true :=
  leadsWith_iff.mpr ⟨t, rfl⟩

theorem digitVal_digitChar {n : Nat} (h : n < 10) : digitVal (digitChar n) = n := by
  interval_cases n <;> rfl

theorem isDig_digitChar {n : Nat} (h : n < 10) : isDig (digitChar n) = true := by
  interval_cases n <;> rfl

theorem digitsVal_concat (l : List Char) (c : Char) :
    digitsVal (l ++ [c]) = 10 * digitsVal l + digitVal c := by
  simp [digitsVal, List.foldl_append]

theorem natDigitsF_spec :
    ∀ fuel n, n < fuel →
      digitsVal (natDigitsF fuel n) = n ∧ natDigitsF fuel n ≠ []
        ∧ ∀ c ∈ natDigitsF fuel n, isDig c = true := by
  intro fuel
  induction fuel with
  | zero => intro n h; omega
  | succ fuel ih =>
    intro n h
    by_cases h10 : n < 10
    · refine ⟨?_, by simp [natDigitsF, h10], ?_⟩
      · simp [natDigitsF, h10, digitsVal, digitVal_digitChar h10]
      · intro c hc
        simp [natDigitsF, h10] at hc
        rw [hc]
        exact isDig_digitChar h10
    · have hdiv : n / 10 < n := Nat.div_lt_self (by omega) (by norm_num)
      have hfuel : n / 10 < fuel := by omega
      obtain ⟨ihv, ihne, ihd⟩ := ih (n / 10) hfuel
      simp only [natDigitsF, h10, if_false]
      refine ⟨?_, by simp, ?_⟩
      · rw [digitsVal_concat, ihv, digitVal_digitChar (Nat.mod_lt _ (by norm_num))]
        omega
      · intro c hc
        rcases List.mem_append.mp hc with hc | hc
        · exact ihd c hc
        · simp at hc
          rw [hc]
          exact isDig_digitChar (Nat.mod_lt _ (by norm_num))

theorem digitsVal_natDigits (n : Nat) : digitsVal (natDigits n) = n :=
  (natDigitsF_spec (n + 1) n (by omega)).1

theorem natDigits_ne_nil (n : Nat) : natDigits n ≠ [] :=
  (natDigitsF_spec (n + 1) n (by omega)).2.1

theorem natDigits_all_isDig (n : Nat) : ∀ c ∈ natDigits n, isDig c = true :=
  (natDigitsF_spec (n + 1) n (by omega)).2.2

theorem natDigits_inj {m n : Nat} (h : natDigits m = natDigits n) : m = n := by
  rw [← digitsVal_natDigits m, ← digitsVal_natDigits n, h]

theorem data_append (s t : String) : (s ++ t).data = s.data ++ t.data := by
  cases s; cases t; rfl

theorem outKey_data (n : Nat) : (outKey n).data = outPfx ++ natDigits n := by
  rw [outKey, data_append]
  rfl

theorem outKey_inj {m n : Nat} (h : outKey m = outKey n) : m = n := by
  have hd : (outKey m).data = (outKey n).data := by rw [h]
  rw [outKey_data, outKey_data] at hd
  exact natDigits_inj (List.append_cancel_left hd)

theorem leadsWith_outPfx_outKey (n : Nat) : leadsWith outPfx (outKey n).data = true := by
  rw [outKey_data]
  exact leadsWith_refl_append _ _

theorem splitOnC_ne_nil (sep : Char) (l : List Char) : splitOnC sep l ≠ [] := by
  induction l with
  | nil => simp [splitOnC]
  | cons c rest ih =>
    by_cases h : (c == sep) = true
    · simp [splitOnC, h]
    · simp only [splitOnC, h, if_false]
      rcases hs : splitOnC sep rest with _ | ⟨hd, tl⟩
      · exact absurd hs ih
      · simp

theorem splitOnC_no_sep {sep : Char} {l : List Char}
    (h : ∀ c ∈ l, (c == sep) = false) : splitOnC sep l = [l] := by
  induction l with
  | nil => rfl
  | cons c rest ih =>
    have hc : (c == sep) = false := h c (by simp)
    have ihr : splitOnC sep rest = [rest] := ih (fun c' hc' => h c' (by simp [hc']))
    simp [splitOnC, hc, ihr]

theorem splitOnC_append_sep (sep : Char) (l₁ l₂ : List Char)
    (h : ∀ c ∈ l₁, (c == sep) = false) :
    splitOnC sep (l₁ ++ sep :: l₂) = l₁ :: splitOnC sep l₂ := by
  induction l₁ with
  | nil => simp [splitOnC]
  | cons c rest ih =>
    have hc : (c == sep) = false := h c (by simp)
    have ihr := ih (fun c' hc' => h c' (by simp [hc']))
    simp [splitOnC, hc, ihr]

theorem takeWhile_appendAll {p : Char → Bool} {l₁ : List Char} (l₂ : List Char)
    (h : ∀ c ∈ l₁, p c = true) :
    List.takeWhile p (l₁ ++ l₂) = l₁ ++ List.takeWhile p l₂ := by
  induction l₁ with
  | nil => rfl
  | cons c rest ih =>
    have hc : p c = true := h c (by simp)
    simp [List.takeWhile, hc, ih (fun c' hc' => h c' (by simp [hc']))]

theorem dropWhile_appendAll {p : Char → Bool} {l₁ : List Char} (l₂ : List Char)
    (h : ∀ c ∈ l₁, p c = true) :
    List.dropWhile p (l₁ ++ l₂) = List.dropWhile p l₂ := by
  induction l₁ with
  | nil => rfl
  | cons c rest ih =>
    have hc : p c = true := h c (by simp)
    simp [List.dropWhile, hc, ih (fun c' hc' => h c' (by simp [hc']))]

theorem takeWhile_all {p : Char → Bool} {l : List Char}
    (h : ∀ c ∈ l, p c = true) : List.takeWhile p l = l := by
  have h2 : List.takeWhile p (l ++ []) = l ++ List.takeWhile p [] :=
    takeWhile_appendAll [] h
  simpa using h2

theorem dropWhile_cons_false {p : Char → Bool} {c : Char} (l : List Char)
    (h : p c = false) : List.dropWhile p (c :: l) = c :: l := by
  simp [List.dropWhile, h]

theorem trimChars_no_space {l : List Char}
    (h : ∀ c ∈ l, isPySpace c = false) : trimChars l = l := by
  have hdw : ∀ (m : List Char), (∀ c ∈ m, isPySpace c = false) →
      List.dropWhile isPySpace m = m := by
    intro m hm
    cases m with
    | nil => rfl
    | cons c rest => exact dropWhile_cons_false rest (hm c (by simp))
  unfold trimChars
  rw [hdw l h, hdw l.reverse (fun c hc => h c (List.mem_reverse.mp hc)), List.reverse_reverse]

theorem natRange_concat (s n : Nat) : natRange s (n + 1) = natRange s n ++ [s + n] := by
  induction n generalizing s with
  | zero => simp [natRange]
  | succ n ih =>
    show s :: natRange (s + 1) (n + 1) = (s :: natRange (s + 1) n) ++ [s + (n + 1)]
    rw [ih (s + 1)]
    have harith : s + 1 + n = s + (n + 1) := by omega
    simp [harith]

theorem mem_natRange {m s n : Nat} : m ∈ natRange s n ↔ s ≤ m ∧ m < s + n := by
  induction n generalizing s with
  | zero => simp [natRange]
  | succ n ih =>
    simp only [natRange, List.mem_cons, ih]
    omega

theorem stepOk_parts {lib : FunctionLibraryM} {c : Step} (h : stepOkB lib c = true) :
    ∃ fn e, c.function = some fn ∧ (fn == "") = false ∧ lookupFunc lib fn = some e
      ∧ e.inSchema.all (fun p => containsKey (c.inputs.getD []) p.1) = true := by
  rcases hf : c.function with _ | fn
  · simp [stepOkB, hf] at h
  · simp only [stepOkB, hf] at h
    rcases hfe : (fn == "") with _ | _
    · rcases hlk : lookupFunc lib fn with _ | e
      · rw [hfe, hlk] at h
        simp at h
      · rw [hfe, hlk] at h
        simp only [Bool.not_false, Bool.true_and] at h
        exact ⟨fn, e, rfl, hfe, hlk, h⟩
    · rw [hfe] at h
      simp at h

theorem validateFrom_true_iff (lib : FunctionLibraryM) :
    ∀ (calls : List Step) (i : Nat),
      (validateFrom lib calls i).1 = true ↔ ∀ c ∈ calls, stepOkB lib c = true := by
  intro calls
  induction calls with
  | nil => intro i; simp [validateFrom]
  | cons c rest ih =>
    intro i
    rcases hf : c.function with _ | fn
    · simp only [validateFrom, hf]
      constructor
      · intro h; simp at h
      · intro hall
        have := hall c (by simp)
        simp [stepOkB, hf] at this
    · rcases hfe : (fn == "") with _ | _
      · rcases hlk : lookupFunc lib fn with _ | e
        · simp only [validateFrom, hf, hfe, Bool.false_eq_true, if_false, hlk]
          constructor
          · intro h; simp at h
          · intro hall
            have := hall c (by simp)
            simp [stepOkB, hf, hfe, hlk] at this
        · rcases hfind : e.inSchema.find? (fun p => !containsKey (c.inputs.getD []) p.1)
            with _ | p
          · have hok : stepOkB lib c = true := by
              simp only [stepOkB, hf, hfe, hlk, Bool.not_false, Bool.true_and]
              rw [List.all_eq_true]
              intro x hx
              have := List.find?_eq_none.mp hfind x hx
              simpa using this
            simp only [validateFrom, hf, hfe, Bool.false_eq_true, if_false, hlk, hfind]
            rw [ih (i + 1)]
            constructor
            · intro hall c' hc'
              rcases List.mem_cons.mp hc' with rfl | hc'
              · exact hok
              · exact hall c' hc'
            · intro hall c' hc'
              exact hall c' (by simp [hc'])
          · have hbad : stepOkB lib c = false := by
              simp only [stepOkB, hf, hfe, hlk, Bool.not_false, Bool.true_and]
              have hp := List.find?_some hfind
              have hmem := List.mem_of_find?_eq_some hfind
              rcases hh : e.inSchema.all (fun p => containsKey (c.inputs.getD []) p.1)
                with _ | _
              · rfl
              · rw [List.all_eq_true] at hh
                have := hh p hmem
                rw [this] at hp
                cases hp
            simp only [validateFrom, hf, hfe, Bool.false_eq_true, if_false, hlk, hfind]
            constructor
            · intro h; simp at h
            · intro hall
              have := hall c (by simp)
              rw [this] at hbad
              simp at hbad
      · simp only [validateFrom, hf, hfe, if_true]
        constructor
        · intro h; simp at h
        · intro hall
          have := hall c (by simp)
          simp [stepOkB, hf, hfe] at this

theorem validateFrom_firstViol (lib : FunctionLibraryM) :
    ∀ (calls : List Step) (i j : Nat) (hj : j < calls.length),
      (∀ c ∈ calls.take j, stepOkB lib c = true) →
      stepOkB lib (calls.get ⟨j, hj⟩) = false →
      validateFrom lib calls i = (false, stepErrMsg lib (i + j) (calls.get ⟨j, hj⟩)) := by
  intro calls
  induction calls with
  | nil => intro i j hj; simp at hj
  | cons c rest ih =>
    intro i j hj hpre hbad
    cases j with
    | zero =>
      simp only [List.get] at hbad
      rcases hf : c.function with _ | fn
      · simp only [validateFrom, hf, Nat.add_zero, stepErrMsg, List.get]
      · rcases hfe : (fn == "") with _ | _
        · rcases hlk : lookupFunc lib fn with _ | e
          · simp only [validateFrom, hf, hfe, Bool.false_eq_true, if_false, hlk,
              Nat.add_zero, stepErrMsg, List.get]
          · rcases hfind : e.inSchema.find? (fun p => !containsKey (c.inputs.getD []) p.1)
              with _ | p
            · have hok : stepOkB lib c = true := by
                simp only [stepOkB, hf, hfe, hlk, Bool.not_false, Bool.true_and]
                rw [List.all_eq_true]
                intro x hx
                have := List.find?_eq_none.mp hfind x hx
                simpa using this
              rw [hok] at hbad
              simp at hbad
            · simp only [validateFrom, hf, hfe, Bool.false_eq_true, if_false, hlk, hfind,
                Nat.add_zero, stepErrMsg, List.get]
        · simp only [validateFrom, hf, hfe, if_true, Nat.add_zero, stepErrMsg, List.get]
    | succ j =>
      have hok : stepOkB lib c = true := hpre c (by simp)
      obtain ⟨fn, e, hf, hfe, hlk, hall⟩ := stepOk_parts hok
      have hfind : e.inSchema.find? (fun p => !containsKey (c.inputs.getD []) p.1) = none := by
        rw [List.find?_eq_none]
        intro x hx
        rw [List.all_eq_true] at hall
        simp [hall x hx]
      have hj' : j < rest.length := by simpa using hj
      have hpre' : ∀ c' ∈ rest.take j, stepOkB lib c' = true := by
        intro c' hc'
        exact hpre c' (by simp [hc'])
      have hbad' : stepOkB lib (rest.get ⟨j, hj'⟩) = false := by
        simpa using hbad
      have := ih (i + 1) j hj' hpre' hbad'
      simp only [validateFrom, hf, hfe, Bool.false_eq_true, if_false, hlk, hfind]
      rw [this]
      have : i + 1 + j = i + (j + 1) := by omega
      simp [this]

theorem lookupFunc_withImpls (lib : FunctionLibraryM)
    (f : String → List (String × Value) → Except String Value) (n : String) :
    lookupFunc (withImpls lib f) n =
      (lookupFunc lib n).map (fun e => ⟨e.descr, e.inSchema, e.outSchema, f n⟩) := by
  unfold lookupFunc withImpls
  induction lib.funcs with
  | nil => rfl
  | cons p rest ih =>
    obtain ⟨nm, e⟩ := p
    rcases hn : (nm == n) with _ | _
    · simp only [List.map_cons, List.find?_cons, hn]
      simpa using ih
    · have : nm = n := beq_iff_eq.mp hn
      simp [List.find?_cons, hn, this]

theorem validateFrom_withImpls (lib : FunctionLibraryM)
    (f : String → List (String × Value) → Except String Value) :
    ∀ (calls : List Step) (i : Nat),
      validateFrom (withImpls lib f) calls i = validateFrom lib calls i := by
  intro calls
  induction calls with
  | nil => intro i; rfl
  | cons c rest ih =>
    intro i
    rcases hf : c.function with _ | fn
    · simp [validateFrom, hf]
    · rcases hlk : lookupFunc lib fn with _ | e
      · simp [validateFrom, hf, lookupFunc_withImpls, hlk]
      · simp only [validateFrom, hf, lookupFunc_withImpls, hlk, Option.map_some]
        rcases hfind : e.inSchema.find? (fun p => !containsKey (c.inputs.getD []) p.1)
          with _ | p <;> simp [hfind, ih]

theorem buildPlan_ok (lib : FunctionLibraryM) :
    ∀ (calls : List Step) (i : Nat),
      (∀ c ∈ calls, stepOkB lib c = true) →
      (∀ c ∈ calls, c.inputs.isSome = true) →
      ∃ pl, buildPlan lib calls i = .ok pl := by
  intro calls
  induction calls with
  | nil => intro i _ _; exact ⟨[], rfl⟩
  | cons c rest ih =>
    intro i hok hin
    obtain ⟨fn, e, hf, _, hlk, _⟩ := stepOk_parts (hok c (by simp))
    have hinc : c.inputs.isSome = true := hin c (by simp)
    rcases hi : c.inputs with _ | inp
    · rw [hi] at hinc; cases hinc
    · obtain ⟨pl, hpl⟩ := ih (i + 1) (fun c' hc' => hok c' (by simp [hc']))
        (fun c' hc' => hin c' (by simp [hc']))
      exact ⟨⟨i, fn, inp, e.descr⟩ :: pl, by simp [buildPlan, hf, hlk, hi, hpl]⟩

/-- C9: `execute_pipeline` re-initializes the per-run state (output store and
execution history) at the start of each call, so its outcome is independent
of the engine state it starts from; in particular running the identical step
list twice — on the same engine instance or a fresh one — produces
structurally identical results (all modelled operations are pure functions). -/
theorem C9_idempotent (lib : FunctionLibraryM) (steps : List Step) (st st' : EngineState) :
    executePipeline lib steps st = executePipeline lib steps st'
    ∧ (executePipeline lib steps (executePipeline lib steps st).2).1
        = (executePipeline lib steps st).1 :=
  ⟨rfl, rfl⟩

/-- C10: executing an empty step list returns a success result with null
`final_output`, empty execution history and empty outputs store. -/
theorem C10_empty (lib : FunctionLibraryM) (st : EngineState) :
    (executePipeline lib [] st).1
      = ⟨true, Value.null, none, none, [], []⟩ :=
  rfl

/-- C1 counterexample: a one-step pipeline whose single step succeeds (its
record is logged with `success = true`) but whose step declares the alias
`output_foo`; the returned result has `success = false` (the final-output
selection raises on the non-numeric suffix and the run is attributed to
step `-1`), contradicting the claim as stated. -/
theorem C1_counterexample :
    (executePipeline exLib [⟨some "f1", some [], some "output_foo"⟩] ⟨[], []⟩).1.success = false
    ∧ (executePipeline exLib [⟨some "f1", some [], some "output_foo"⟩] ⟨[], []⟩).1.execution_history.length = 1
    ∧ (executePipeline exLib [⟨some "f1", some [], some "output_foo"⟩] ⟨[], []⟩).1.execution_history.all
        (fun r => r.success) = true
    ∧ (executePipeline exLib [⟨some "f1", some [], some "output_foo"⟩] ⟨[], []⟩).1.failed_step
        = some (-1) :=
  ⟨rfl, rfl, rfl, rfl⟩

/-- C2 counterexample: step 0 succeeds with alias `output_5`, step 1 is the
first failing step; the partial store still contains the key `output_5`
with `5 > 1`, contradicting "no `output_j` entry for any `j > i`". -/
theorem C2_counterexample :
    (executePipeline exLib [⟨some "f1", some [], some "output_5"⟩, ⟨some "g", some [], none⟩] ⟨[], []⟩).1.success = false
    ∧ (executePipeline exLib [⟨some "f1", some [], some "output_5"⟩, ⟨some "g", some [], none⟩] ⟨[], []⟩).1.failed_step = some 1
    ∧ (executePipeline exLib [⟨some "f1", some [], some "output_5"⟩, ⟨some "g", some [], none⟩] ⟨[], []⟩).1.execution_history.length = 2
    ∧ ((executePipeline exLib [⟨some "f1", some [], some "output_5"⟩, ⟨some "g", some [], none⟩] ⟨[], []⟩).1.execution_history.head?.map
        (fun r => r.success)) = some true
    ∧ alookup (executePipeline exLib [⟨some "f1", some [], some "output_5"⟩, ⟨some "g", some [], none⟩] ⟨[], []⟩).1.outputs
        (outKey 5) = some (.int 1) :=
  ⟨rfl, rfl, rfl, rfl, rfl⟩

/-- C3 counterexample: the string `"$100"` begins with `$` and matches
neither reference syntax, yet input resolution raises (a wrapped
`ValueError`) instead of returning it unchanged. -/
theorem C3_counterexample :
    resolveOne [] [] (.str "$100")
      = .error "Error resolving variable $100: Invalid variable reference: $100" :=
  rfl

/-- C4 counterexample: `"$output_0x"` does not match the anchored pattern
`^\$output_(\d+)(\.\w[\w.]*)?$`, yet the engine treats it as a positional
reference and resolves it to the stored `output_0` value (the unanchored
`re.match` ignores the trailing `x`). -/
theorem C4_counterexample :
    ancMatch "$output_0x" = false
    ∧ resolveVariable [("output_0", .int 7)] "$output_0x" = .ok (.int 7) :=
  ⟨rfl, rfl⟩

/-- C5 counterexample: a step invoking the no-input operation `noop` but
carrying no `inputs` key passes validation, and `dry_run` then raises an
uncaught `KeyError` instead of returning a structured result. -/
theorem C5_counterexample :
    validateFunctionCalls exLib [⟨some "noop", none, none⟩] = (true, "Validation passed")
    ∧ dryRun exLib [⟨some "noop", none, none⟩] = .error "KeyError: 'inputs'" :=
  ⟨rfl, rfl⟩

/-- C6 counterexample: two steps declare the same alias `x`; after step 0 the
store maps `x` to step 0's output, and after step 1 (a state the two-step
run passes through, third conjunct) the same key has been overwritten with
step 1's output — the store is not append-only. -/
theorem C6_counterexample :
    alookup (runSteps exLib [exStepX1] 0 ⟨[], []⟩).2.output_storage "x" = some (.int 1)
    ∧ alookup (runSteps exLib [exStepX1, exStepX2] 0 ⟨[], []⟩).2.output_storage "x" = some (.int 2)
    ∧ runSteps exLib [exStepX1, exStepX2] 0 ⟨[], []⟩
        = runSteps exLib [exStepX2] 1 (runSteps exLib [exStepX1] 0 ⟨[], []⟩).2 :=
  ⟨rfl, rfl, rfl⟩

end Pipeline

namespace Pipeline

/-- C8: `validate_function_calls` checks steps in declaration order: it
returns `valid = true` iff every step has a truthy, registered operation
name with all schema-declared input names present; the first violation
short-circuits with a message naming the violating step index (for an
unregistered operation the message names the index and the operation name);
and the result never depends on the operations' implementations — no
operation is invoked. -/
theorem C8_validate (lib : FunctionLibraryM) (calls : List Step) :
    ((validateFunctionCalls lib calls).1 = true ↔ ∀ c ∈ calls, stepOkB lib c = true)
    ∧ (∀ j (hj : j < calls.length),
        (∀ c ∈ calls.take j, stepOkB lib c = true) →
        stepOkB lib (calls.get ⟨j, hj⟩) = false →
        validateFunctionCalls lib calls = (false, stepErrMsg lib j (calls.get ⟨j, hj⟩)))
    ∧ (∀ f, validateFunctionCalls (withImpls lib f) calls = validateFunctionCalls lib calls)
    ∧ (∀ j fn inp ov, (fn == "") = false → lookupFunc lib fn = none →
        stepErrMsg lib j ⟨some fn, inp, ov⟩
          = "Step " ++ natStr j ++ ": Function '" ++ fn ++ "' not found") := by
  refine ⟨validateFrom_true_iff lib calls 0, ?_, ?_, ?_⟩
  · intro j hj hpre hbad
    have := validateFrom_firstViol lib calls 0 j hj hpre hbad
    simpa [validateFunctionCalls] using this
  · intro f
    exact validateFrom_withImpls lib f calls 0
  · intro j fn inp ov h1 h2
    simp [stepErrMsg, h1, h2]

/-- Witness for C8: validating a step that references the unregistered
operation `foo` fails with the message naming step index 0 and `foo`. -/
theorem C8_validate_witness :
    validateFunctionCalls exLib [⟨some "foo", some [], none⟩]
      = (false, "Step 0: Function 'foo' not found") := by
  have h := (C8_validate exLib [⟨some "foo", some [], none⟩]).2.1 0 (by decide)
    (by intro c hc; simp at hc) (by rfl)
  rw [h]
  rfl

/-- C5 (amended): `execute_pipeline` and the validator always return
structured results (they are modelled as total functions), and `dry_run`
returns a structured result on every step list whose steps all carry an
`inputs` key; the unamended claim fails because `dry_run` raises `KeyError`
on a validated step without one. -/
theorem C5_amended (lib : FunctionLibraryM) (calls : List Step)
    (h : ∀ c ∈ calls, c.inputs.isSome = true) :
    exceptOk (dryRun lib calls) = true := by
  rcases hv : (validateFunctionCalls lib calls).1 with _ | _
  · simp [dryRun, hv, exceptOk]
  · have hall := (validateFrom_true_iff lib calls 0).mp hv
    obtain ⟨pl, hpl⟩ := buildPlan_ok lib calls 0 hall h
    simp [dryRun, hv, hpl, exceptOk]

/-- Witness for C5 (amended): a dry run over a well-formed one-step list
returns a structured result. -/
theorem C5_amended_witness :
    exceptOk (dryRun exLib [⟨some "noop", some ([] : List (String × Value)), none⟩]) = true :=
  C5_amended exLib [⟨some "noop", some [], none⟩]
    (by intro c hc; rcases List.mem_singleton.mp hc with rfl; rfl)

end Pipeline

namespace Pipeline

theorem templGuard_of_dollar {s : String} {t : List Char} (ht : s.data = '$' :: t) :
    templGuard s = false := by
  unfold templGuard
  rw [ht]
  have h1 : leadsWith [obrace, obrace] ('$' :: t)
      = ((obrace == '$') && leadsWith [obrace] t) := rfl
  have h2 : (obrace == '$') = false := by decide
  rw [h1, h2, Bool.false_and, Bool.false_and]

/-- C3 (amended): non-string values pass through resolution unchanged, and a
string that neither satisfies the template-brace guard nor begins with `$`
is returned unchanged as a literal; but a string beginning with `$` that
does not match the positional prefix pattern fails with a wrapped
`Invalid variable reference` error rather than passing through. -/
theorem C3_amended (store : List (String × Value)) (hist : List XRecord) :
    (∀ v : Value, (∀ s, v ≠ Value.str s) → resolveOne store hist v = .ok v)
    ∧ (∀ s : String, templGuard s = false → leadsWith ['$'] s.data = false →
        resolveOne store hist (.str s) = .ok (.str s))
    ∧ (∀ s : String, leadsWith ['$'] s.data = true → matchOutputRef s = none →
        resolveOne store hist (.str s) = .error (wrapVar s (.invalidRef s))) := by
  refine ⟨?_, ?_, ?_⟩
  · intro v hv
    cases v with
    | str s => exact absurd rfl (hv s)
    | null => rfl
    | bool b => rfl
    | int n => rfl
    | list xs => rfl
    | dict d => rfl
  · intro s h1 h2
    simp [resolveOne, h1, h2]
  · intro s h1 h2
    obtain ⟨t, ht⟩ := leadsWith_iff.mp h1
    have hg : templGuard s = false := templGuard_of_dollar (by simpa using ht)
    simp [resolveOne, hg, h1, resolveVariable, h2]

/-- Witness for C3 (amended): the literal string `"hello"` passes through
unchanged, and the `$`-prefixed non-reference `"$100"` fails with the
wrapped error. -/
theorem C3_amended_witness :
    resolveOne [] [] (.str "hello") = .ok (.str "hello")
    ∧ resolveOne [] [] (.str "$100")
        = .error (wrapVar "$100" (.invalidRef "$100")) := by
  constructor
  · exact (C3_amended [] []).2.1 "hello" (by rfl) (by rfl)
  · exact (C3_amended [] []).2.2 "$100" (by rfl) (by rfl)

end Pipeline

namespace Pipeline

theorem matchOutputRef_of_anc {s : String} (h : ancMatch s = true) :
    (matchOutputRef s).isSome = true := by
  unfold ancMatch at h
  rw [Bool.and_eq_true] at h
  obtain ⟨hpfx, hbody⟩ := h
  simp only [Bool.and_eq_true, Bool.not_eq_true'] at hbody
  obtain ⟨hds, _⟩ := hbody
  unfold matchOutputRef
  rw [hpfx]
  simp only [if_true, hds, Bool.false_eq_true, if_false]
  split
  · split <;> rfl
  · rfl

/-- C4 (amended): the strings treated as positional references are exactly
those accepted by the unanchored prefix matcher `matchOutputRef` (every
string matching the spec's anchored pattern is among them); a non-matching
string fails with an `invalidRef` error (never a literal pass-through), a
matching string fails with `outputNotFound` when `output_N` is absent, and
otherwise the dotted path is navigated left-to-right with
`NotAContainer`/`FieldNotFound` failures — as witnessed concretely by
`$output_0.a.b` on the two stores of the claim. -/
theorem C4_amended :
    (∀ s : String, ancMatch s = true → (matchOutputRef s).isSome = true)
    ∧ (∀ (store : List (String × Value)) (s : String),
        matchOutputRef s = none → resolveVariable store s = .error (.invalidRef s))
    ∧ (∀ (store : List (String × Value)) (s : String) (n : Nat) (po : Option (List Char)),
        matchOutputRef s = some (n, po) → alookup store (outKey n) = none →
        resolveVariable store s = .error (.outputNotFound (outKey n)))
    ∧ (∀ (store : List (String × Value)) (s : String) (n : Nat) (path : List Char)
        (data : Value),
        matchOutputRef s = some (n, some path) → alookup store (outKey n) = some data →
        resolveVariable store s = navigate data ((splitOnC '.' path).map String.mk))
    ∧ resolveVariable [("output_0", .dict [("a", .dict [("b", .int 5)])])] "$output_0.a.b"
        = .ok (.int 5)
    ∧ resolveVariable [("output_0", .dict [("a", .dict [])])] "$output_0.a.b"
        = .error (.fieldNotFound "b") := by
  refine ⟨fun s h => matchOutputRef_of_anc h, ?_, ?_, ?_, rfl, rfl⟩
  · intro store s h
    simp [resolveVariable, h]
  · intro store s n po h1 h2
    simp [resolveVariable, h1, h2]
  · intro store s n path data h1 h2
    simp [resolveVariable, h1, h2]

/-- Witness for C4 (amended): resolving `$output_3` against an empty store
fails with `outputNotFound` for the key `output_3`. -/
theorem C4_amended_witness :
    resolveVariable [] "$output_3" = .error (.outputNotFound (outKey 3)) :=
  C4_amended.2.2.1 [] "$output_3" 3 none (by rfl) (by rfl)

end Pipeline

namespace Pipeline

theorem strMk_data (s : String) : String.mk s.data = s := by
  cases s
  rfl

theorem isEmpty_false_of_ne_nil {l : List Char} (h : l ≠ []) : l.isEmpty = false := by
  rcases hx : l with _ | _
  · exact absurd hx h
  · rfl

theorem matchOutputRef_eq (k : Nat) (p : String) (hpne : p.data ≠ [])
    (hpnl : ∀ c ∈ p.data, (c == '\n') = false) :
    matchOutputRef ("$output_" ++ natStr k ++ "." ++ p) = some (k, some p.data) := by
  have hdata : ("$output_" ++ natStr k ++ "." ++ p).data
      = refPfx ++ (natDigits k ++ '.' :: p.data) := by
    simp [data_append, natStr, refPfx, List.append_assoc]
  unfold matchOutputRef
  rw [hdata, leadsWith_refl_append]
  simp only [if_true]
  have h8 : refPfx.length = 8 := rfl
  rw [← h8, List.drop_left]
  have hdall := natDigits_all_isDig k
  have hdot : isDig '.' = false := by decide
  rw [takeWhile_appendAll _ hdall, dropWhile_appendAll _ hdall,
    List.takeWhile_cons, hdot]
  simp only [Bool.false_eq_true, if_false, List.append_nil]
  rw [dropWhile_cons_false _ hdot]
  have hne : (natDigits k).isEmpty = false :=
    isEmpty_false_of_ne_nil (natDigits_ne_nil k)
  simp only [hne, Bool.false_eq_true, if_false]
  have hpath : p.data.takeWhile (fun c => !(c == '\n')) = p.data :=
    takeWhile_all (fun c hc => by rw [hpnl c hc]; rfl)
  simp only [hpath, isEmpty_false_of_ne_nil hpne, Bool.false_eq_true, if_false,
    digitsVal_natDigits]

/-- C7: in a run state whose store binds the alias `x` and the positional key
`output_k` to the same non-null value — the state produced when step `k`
succeeded with `output_var` alias `x` — the named reference
`{{x.<path>}}` resolves to exactly the same result (same value, and on
failure the same error) as the positional reference `$output_k.<path>` with
the identical field path. -/
theorem C7_named_positional (store : List (String × Value)) (hist : List XRecord)
    (x p : String) (k : Nat) (v : Value)
    (hxdot : ∀ c ∈ x.data, (c == '.') = false)
    (htrim : trimChars (x.data ++ '.' :: p.data) = x.data ++ '.' :: p.data)
    (hpne : p.data ≠ [])
    (hpnl : ∀ c ∈ p.data, (c == '\n') = false)
    (hxv : alookup store x = some v)
    (hkv : alookup store (outKey k) = some v)
    (hvn : v.isNull = false) :
    resolveTemplateVariable store hist ("\x7b\x7b" ++ x ++ "." ++ p ++ "\x7d\x7d")
      = resolveVariable store ("$output_" ++ natStr k ++ "." ++ p) := by
  have hrhs : resolveVariable store ("$output_" ++ natStr k ++ "." ++ p)
      = navigate v ((splitOnC '.' p.data).map String.mk) := by
    simp [resolveVariable, matchOutputRef_eq k p hpne hpnl, hkv]
  have hdata : ("\x7b\x7b" ++ x ++ "." ++ p ++ "\x7d\x7d").data
      = obrace :: obrace :: ((x.data ++ '.' :: p.data) ++ [cbrace, cbrace]) := by
    simp [data_append, obrace, cbrace, List.append_assoc]
  have hinner : ((("\x7b\x7b" ++ x ++ "." ++ p ++ "\x7d\x7d").data.drop 2).take
      ((("\x7b\x7b" ++ x ++ "." ++ p ++ "\x7d\x7d").data.drop 2).length - 2))
      = x.data ++ '.' :: p.data := by
    rw [hdata]
    show ((x.data ++ '.' :: p.data) ++ [cbrace, cbrace]).take
      (((x.data ++ '.' :: p.data) ++ [cbrace, cbrace]).length - 2) = _
    have hlen : ((x.data ++ '.' :: p.data) ++ [cbrace, cbrace]).length - 2
        = (x.data ++ '.' :: p.data).length := by
      simp
      omega
    rw [hlen, List.take_left]
  unfold resolveTemplateVariable
  rw [hinner, htrim]
  unfold templResolve
  rw [splitOnC_append_sep '.' x.data p.data hxdot]
  have hdata2 : templateData store hist (String.mk x.data) = v := by
    rw [strMk_data]
    simp [templateData, hxv]
  simp only [hdata2, hvn, Bool.false_eq_true, if_false]
  rw [hrhs]

/-- Witness for C7: `{{x.total}}` and `$output_0.total` resolve identically
(to `5`) against a store binding both `x` and `output_0` to the same dict. -/
theorem C7_named_positional_witness :
    resolveTemplateVariable exStore7 [] ("\x7b\x7b" ++ "x" ++ "." ++ "total" ++ "\x7d\x7d")
      = resolveVariable exStore7 ("$output_" ++ natStr 0 ++ "." ++ "total") :=
  C7_named_positional exStore7 [] "x" "total" 0 (.dict [("total", .int 5)])
    (by decide) (by decide) (by decide) (by decide) (by rfl) (by rfl) (by rfl)

end Pipeline

namespace Pipeline

theorem executeStep_fail_state {lib : FunctionLibraryM} {i : Nat} {c : Step}
    {st : EngineState} {e : String} (h : (executeStep lib i c st).1 = some e) :
    (executeStep lib i c st).2
      = ⟨st.execution_history
            ++ [⟨i, c.function, c.inputs.getD [], .null, none, some e, false⟩],
         st.output_storage⟩ := by
  unfold executeStep at h ⊢
  rcases hr : resolveInputs st.output_storage st.execution_history (c.inputs.getD [])
      with e' | resolved
  · simp only [hr] at h ⊢
    injection h with h
    rw [h]
  · simp only [hr] at h ⊢
    rcases hx : executeFunction lib c.function resolved with e' | result
    · simp only [hx] at h ⊢
      injection h with h
      rw [h]
    · simp only [hx] at h
      cases h

theorem executeStep_ok_state {lib : FunctionLibraryM} {i : Nat} {c : Step}
    {st : EngineState} (h : (executeStep lib i c st).1 = none) :
    ∃ resolved result,
      resolveInputs st.output_storage st.execution_history (c.inputs.getD [])
          = .ok resolved
      ∧ executeFunction lib c.function resolved = .ok result
      ∧ (executeStep lib i c st).2
          = ⟨st.execution_history
                ++ [⟨i, c.function, resolved, result, c.output_var, none, true⟩],
             storeWrite st.output_storage i c.output_var result⟩ := by
  unfold executeStep at h ⊢
  rcases hr : resolveInputs st.output_storage st.execution_history (c.inputs.getD [])
      with e' | resolved
  · simp only [hr] at h
    cases h
  · simp only [hr] at h ⊢
    rcases hx : executeFunction lib c.function resolved with e' | result
    · simp only [hx] at h
      cases h
    · refine ⟨resolved, result, rfl, hx, ?_⟩
      simp only [hx]

theorem mem_keysOf_ainsert {S : List (String × Value)} {key : String} {val : Value}
    {x : String} (h : x ∈ keysOf (ainsert S key val)) : x ∈ keysOf S ∨ x = key := by
  rcases hc : containsKey S key with _ | _
  · rw [keysOf_ainsert_fresh hc] at h
    rcases List.mem_append.mp h with h | h
    · exact Or.inl h
    · exact Or.inr (by simpa using h)
  · rw [keysOf_ainsert_contains hc] at h
    exact Or.inl h

theorem mem_keysOf_storeWrite {S : List (String × Value)} {i : Nat} {ov : Option String}
    {result : Value} {x : String} (h : x ∈ keysOf (storeWrite S i ov result)) :
    x ∈ keysOf S ∨ x = outKey i ∨ (∃ a, ov = some a ∧ a ≠ "" ∧ x = a) := by
  cases ov with
  | none =>
    simp only [storeWrite] at h
    rcases mem_keysOf_ainsert h with h | h
    · exact Or.inl h
    · exact Or.inr (Or.inl h)
  | some a =>
    simp only [storeWrite] at h
    rcases hae : (a == "") with _ | _
    · rw [hae] at h
      simp only [Bool.false_eq_true, if_false] at h
      rcases mem_keysOf_ainsert h with h | h
      · rcases mem_keysOf_ainsert h with h | h
        · exact Or.inl h
        · exact Or.inr (Or.inl h)
      · exact Or.inr (Or.inr ⟨a, rfl, by simpa using hae, h⟩)
    · rw [hae] at h
      simp only [if_true] at h
      rcases mem_keysOf_ainsert h with h | h
      · exact Or.inl h
      · exact Or.inr (Or.inl h)

theorem alookup_ainsert_preserve {S : List (String × Value)} {key k : String}
    {v : Value} (val : Value) (hfresh : containsKey S key = false)
    (h : alookup S k = some v) : alookup (ainsert S key val) k = some v := by
  have hne : k ≠ key := by
    intro he
    rw [he] at h
    rw [alookup_eq_none_iff.mpr hfresh] at h
    cases h
  rw [alookup_ainsert_ne hne]
  exact h

theorem leadsWith_outPfx_false_ne_outKey {a : String} {j : Nat}
    (ha : leadsWith outPfx a.data = false) : a ≠ outKey j := by
  intro he
  rw [he, leadsWith_outPfx_outKey] at ha
  cases ha

theorem storeWrite_preserve {S : List (String × Value)} {i : Nat} {ov : Option String}
    {result : Value} {k : String} {v : Value}
    (hko : containsKey S (outKey i) = false)
    (hal : ∀ a, ov = some a → a ≠ "" →
      leadsWith outPfx a.data = false ∧ containsKey S a = false)
    (h : alookup S k = some v) :
    alookup (storeWrite S i ov result) k = some v := by
  cases ov with
  | none =>
    simp only [storeWrite]
    exact alookup_ainsert_preserve result hko h
  | some a =>
    simp only [storeWrite]
    rcases hae : (a == "") with _ | _
    · simp only [hae, Bool.false_eq_true, if_false]
      obtain ⟨hpfx, hfr⟩ := hal a rfl (by simpa using hae)
      have h1 := alookup_ainsert_preserve result hko h
      refine alookup_ainsert_preserve result ?_ h1
      rw [← alookup_eq_none_iff]
      rw [alookup_ainsert_ne (leadsWith_outPfx_false_ne_outKey hpfx)]
      rw [alookup_eq_none_iff]
      exact hfr
    · simp only [hae, if_true]
      exact alookup_ainsert_preserve result hko h

theorem alookup_outKey_none_of_filtKeys {S : List (String × Value)} {m j : Nat}
    (hfk : filtKeys S = (natRange 0 m).map outKey) (hj : m ≤ j) :
    alookup S (outKey j) = none := by
  rw [alookup_eq_none_iff]
  rcases hc : containsKey S (outKey j) with _ | _
  · rfl
  · exfalso
    have hmem := containsKey_iff.mp hc
    have hin : outKey j ∈ filtKeys S :=
      List.mem_filter.mpr ⟨hmem, leadsWith_outPfx_outKey j⟩
    rw [hfk] at hin
    obtain ⟨j', hj', hje⟩ := List.mem_map.mp hin
    have := outKey_inj hje
    rw [mem_natRange] at hj'
    omega

theorem filtKeys_ainsert_out {S : List (String × Value)} {i : Nat} {result : Value}
    (hfresh : containsKey S (outKey i) = false) :
    filtKeys (ainsert S (outKey i) result) = filtKeys S ++ [outKey i] := by
  unfold filtKeys
  rw [keysOf_ainsert_fresh hfresh, List.filter_append]
  simp [leadsWith_outPfx_outKey i]

theorem filtKeys_ainsert_alias {S : List (String × Value)} {a : String} {result : Value}
    (ha : leadsWith outPfx a.data = false) :
    filtKeys (ainsert S a result) = filtKeys S := by
  rcases hc : containsKey S a with _ | _
  · unfold filtKeys
    rw [keysOf_ainsert_fresh hc, List.filter_append]
    simp [ha]
  · unfold filtKeys
    rw [keysOf_ainsert_contains hc]

theorem filtKeys_storeWrite {S : List (String × Value)} {i : Nat} {ov : Option String}
    {result : Value}
    (hal : ∀ a, ov = some a → a ≠ "" → leadsWith outPfx a.data = false)
    (hfk : filtKeys S = (natRange 0 i).map outKey) :
    filtKeys (storeWrite S i ov result) = (natRange 0 (i + 1)).map outKey := by
  have hfresh : containsKey S (outKey i) = false := by
    rw [← alookup_eq_none_iff]
    exact alookup_outKey_none_of_filtKeys hfk (Nat.le_refl i)
  have hout : filtKeys (ainsert S (outKey i) result)
      = (natRange 0 (i + 1)).map outKey := by
    rw [filtKeys_ainsert_out hfresh, hfk, natRange_concat]
    simp
  cases ov with
  | none =>
    simp only [storeWrite]
    exact hout
  | some a =>
    simp only [storeWrite]
    rcases hae : (a == "") with _ | _
    · simp only [hae, Bool.false_eq_true, if_false]
      rw [filtKeys_ainsert_alias (hal a rfl (by simpa using hae))]
      exact hout
    · simp only [hae, if_true]
      exact hout

end Pipeline

namespace Pipeline

theorem beq_char_false_of_isDig {c : Char} (sp : Char) (h : isDig c = true)
    (hsp : isDig sp = false) : (c == sp) = false := by
  rcases hx : (c == sp) with _ | _
  · rfl
  · rw [beq_iff_eq.mp hx] at h
    rw [h] at hsp
    cases hsp

theorem not_pySpace_of_isDig {c : Char} (h : isDig c = true) : isPySpace c = false := by
  unfold isPySpace
  rw [beq_char_false_of_isDig ' ' h (by decide),
    beq_char_false_of_isDig '\t' h (by decide),
    beq_char_false_of_isDig '\n' h (by decide),
    beq_char_false_of_isDig '\r' h (by decide),
    beq_char_false_of_isDig '\x0b' h (by decide),
    beq_char_false_of_isDig '\x0c' h (by decide)]
  rfl

theorem splitOnC_outKey (j : Nat) :
    splitOnC '_' (outKey j).data = [['o', 'u', 't', 'p', 'u', 't'], natDigits j] := by
  rw [outKey_data]
  have h1 : outPfx ++ natDigits j
      = ['o', 'u', 't', 'p', 'u', 't'] ++ '_' :: natDigits j := rfl
  rw [h1, splitOnC_append_sep '_' _ _ (by decide)]
  rw [splitOnC_no_sep]
  intro c hc
  exact beq_char_false_of_isDig '_' (natDigits_all_isDig j c hc) (by decide)

theorem keyIdx_outKey (j : Nat) : keyIdx (outKey j) = some (Int.ofNat j) := by
  unfold keyIdx
  rw [splitOnC_outKey]
  have hget : ([['o', 'u', 't', 'p', 'u', 't'], natDigits j]).get? 1
      = some (natDigits j) := rfl
  rw [hget]
  have htr : trimChars (natDigits j) = natDigits j :=
    trimChars_no_space (fun c hc => not_pySpace_of_isDig (natDigits_all_isDig j c hc))
  simp only [htr]
  rcases hd : natDigits j with _ | ⟨c0, r0⟩
  · exact absurd hd (natDigits_ne_nil j)
  · have hc0 : isDig c0 = true := by
      apply natDigits_all_isDig j
      rw [hd]
      simp
    have hplus : (c0 == '+') = false := beq_char_false_of_isDig '+' hc0 (by decide)
    have hminus : (c0 == '-') = false := beq_char_false_of_isDig '-' hc0 (by decide)
    have hall : (c0 :: r0).all isDig = true := by
      rw [List.all_eq_true]
      intro x hx
      apply natDigits_all_isDig j
      rw [hd]
      exact hx
    simp only [hplus, hminus, Bool.false_eq_true, if_false, hall, if_true]
    rw [← hd, digitsVal_natDigits]

theorem keyIdxPairs_map (l : List Nat) :
    keyIdxPairs (l.map outKey)
      = .ok (l.map (fun j => (outKey j, Int.ofNat j))) := by
  induction l with
  | nil => rfl
  | cons j rest ih =>
    simp only [List.map_cons, keyIdxPairs, keyIdx_outKey, ih]

theorem pickMax_chain :
    ∀ (l : List (String × Int)) (b : String × Int),
      List.Chain (fun a c => a.2 < c.2) b l →
      some (pickMax b l) = (b :: l).getLast? := by
  intro l
  induction l with
  | nil => intro b _; rfl
  | cons p rest ih =>
    intro b hch
    cases hch with
    | cons hlt hch' =>
      have hstep : pickMax b (p :: rest) = pickMax p rest := by
        simp only [pickMax, if_pos hlt]
      rw [hstep, ih p hch']
      exact List.getLast?_cons_cons.symm

theorem chain_natRange_map :
    ∀ (n s : Nat),
      List.Chain (fun a c : String × Int => a.2 < c.2) (outKey s, Int.ofNat s)
        ((natRange (s + 1) n).map (fun j => (outKey j, Int.ofNat j))) := by
  intro n
  induction n with
  | zero => intro s; exact List.Chain.nil
  | succ n ih =>
    intro s
    show List.Chain _ _ (((s + 1) :: natRange (s + 2) n).map _)
    simp only [List.map_cons]
    exact List.Chain.cons (by simp) (ih (s + 1))

theorem getLast?_natRange_map (n : Nat) :
    ((natRange 0 (n + 1)).map (fun j => (outKey j, Int.ofNat j))).getLast?
      = some (outKey n, Int.ofNat n) := by
  rw [natRange_concat]
  simp

theorem createSuccessResult_empty (st : EngineState)
    (hfk : filtKeys st.output_storage = []) :
    createSuccessResult st
      = .ok ⟨true, .null, none, none, st.execution_history, st.output_storage⟩ := by
  unfold createSuccessResult
  rw [hfk]
  rfl

theorem createSuccessResult_keys (st : EngineState) (n : Nat)
    (hfk : filtKeys st.output_storage = (natRange 0 (n + 1)).map outKey) :
    createSuccessResult st
      = .ok ⟨true, (alookup st.output_storage (outKey n)).getD .null,
          none, none, st.execution_history, st.output_storage⟩ := by
  unfold createSuccessResult
  rw [hfk, keyIdxPairs_map]
  have hsplit : natRange 0 (n + 1) = 0 :: natRange 1 n := rfl
  rw [hsplit]
  simp only [List.map_cons]
  have hch := chain_natRange_map n 0
  have hpm := pickMax_chain _ _ hch
  have hlist : ((outKey 0, Int.ofNat 0)
        :: (natRange 1 n).map (fun j => (outKey j, Int.ofNat j)))
      = (natRange 0 (n + 1)).map (fun j => (outKey j, Int.ofNat j)) := by
    rw [hsplit]
    rfl
  rw [hlist, getLast?_natRange_map] at hpm
  have hbest := Option.some.inj hpm
  rw [hbest]

end Pipeline

namespace Pipeline

theorem aliasOK_parts {c : Step} (h : aliasOK c = true) :
    ∀ a, c.output_var = some a → a ≠ "" → leadsWith outPfx a.data = false := by
  intro a ha hne
  unfold aliasOK at h
  rw [ha] at h
  have h' : (a == "" || !leadsWith outPfx a.data) = true := h
  rcases hx : (a == "") with _ | _
  · rw [hx, Bool.false_or, Bool.not_eq_true'] at h'
    exact h'
  · exact absurd (beq_iff_eq.mp hx) hne

theorem runSteps_ok_spec (lib : FunctionLibraryM) :
    ∀ (steps : List Step) (i : Nat) (st : EngineState),
      (runSteps lib steps i st).1 = none →
      (∀ c ∈ steps, aliasOK c = true) →
      filtKeys st.output_storage = (natRange 0 i).map outKey →
      (∃ recs, (runSteps lib steps i st).2.execution_history
          = st.execution_history ++ recs
        ∧ recs.length = steps.length ∧ (∀ r ∈ recs, r.success = true))
      ∧ filtKeys (runSteps lib steps i st).2.output_storage
          = (natRange 0 (i + steps.length)).map outKey := by
  intro steps
  induction steps with
  | nil =>
    intro i st _ _ hfk
    exact ⟨⟨[], by simp [runSteps], rfl, by simp⟩, by simpa [runSteps] using hfk⟩
  | cons c rest ih =>
    intro i st h hal hfk
    rcases hes : executeStep lib i c st with ⟨eo, st1⟩
    cases eo with
    | some e =>
      rw [runSteps, hes] at h
      cases h
    | none =>
      have h1 : (executeStep lib i c st).1 = none := by rw [hes]
      obtain ⟨resolved, result, _, _, hstate⟩ := executeStep_ok_state h1
      rw [hes] at hstate
      have hst1 : st1 = ⟨st.execution_history
            ++ [⟨i, c.function, resolved, result, c.output_var, none, true⟩],
          storeWrite st.output_storage i c.output_var result⟩ := hstate
      have hrw : runSteps lib (c :: rest) i st = runSteps lib rest (i + 1) st1 := by
        rw [runSteps, hes]
      rw [hrw] at h ⊢
      have hfk1 : filtKeys st1.output_storage = (natRange 0 (i + 1)).map outKey := by
        rw [hst1]
        exact filtKeys_storeWrite (aliasOK_parts (hal c (by simp))) hfk
      obtain ⟨⟨recs, hh, hlen, hsucc⟩, hfk2⟩ :=
        ih (i + 1) st1 h (fun c' hc' => hal c' (by simp [hc'])) hfk1
      constructor
      · refine ⟨⟨i, c.function, resolved, result, c.output_var, none, true⟩ :: recs,
          ?_, ?_, ?_⟩
        · rw [hh, hst1]
          simp
        · simp [hlen]
        · intro r hr
          rcases List.mem_cons.mp hr with rfl | hr
          · rfl
          · exact hsucc r hr
      · rw [hfk2]
        have : i + 1 + rest.length = i + (rest.length + 1) := by omega
        rw [this]
        rfl

/-- C1 (amended): for every step list in which every step's input resolution
and operation invocation succeed and no step declares an alias beginning
with `output_`, the result has `success = true`, an execution history of one
all-success record per step, and `final_output` equal to the value stored
under `output_<N-1>` — the numerically highest `output_<k>` key of the
store. -/
theorem C1_amended (lib : FunctionLibraryM) (steps : List Step) (st : EngineState)
    (hok : (runSteps lib steps 0 ⟨[], []⟩).1 = none)
    (hal : ∀ c ∈ steps, aliasOK c = true) :
    (executePipeline lib steps st).1.success = true
    ∧ (executePipeline lib steps st).1.execution_history.length = steps.length
    ∧ (∀ r ∈ (executePipeline lib steps st).1.execution_history, r.success = true)
    ∧ (steps ≠ [] →
        alookup (executePipeline lib steps st).1.outputs (outKey (steps.length - 1))
          = some (executePipeline lib steps st).1.final_output) := by
  rcases hrun : runSteps lib steps 0 ⟨[], []⟩ with ⟨eo, st'⟩
  have he : eo = none := by rw [hrun] at hok; exact hok
  subst he
  have hspec := runSteps_ok_spec lib steps 0 ⟨[], []⟩ hok hal (by rfl)
  rw [hrun] at hspec
  obtain ⟨⟨recs, hh, hlen, hsucc⟩, hfk⟩ := hspec
  have hh' : st'.execution_history = recs := by simpa using hh
  cases steps with
  | nil =>
    have hfk' : filtKeys st'.output_storage = [] := by simpa using hfk
    have hcs := createSuccessResult_empty st' hfk'
    have hep : (executePipeline lib ([] : List Step) st).1
        = ⟨true, .null, none, none, st'.execution_history, st'.output_storage⟩ := by
      simp only [executePipeline]
      rw [hrun]
      simp only [hcs]
    rw [hep]
    refine ⟨rfl, ?_, ?_, ?_⟩
    · rw [hh', hlen]
    · intro r hr
      rw [hh'] at hr
      exact hsucc r hr
    · intro hne
      exact absurd rfl hne
  | cons c0 cs =>
    have hfk' : filtKeys st'.output_storage
        = (natRange 0 (cs.length + 1)).map outKey := by simpa using hfk
    have hcs := createSuccessResult_keys st' cs.length hfk'
    have hep : (executePipeline lib (c0 :: cs) st).1
        = ⟨true, (alookup st'.output_storage (outKey cs.length)).getD .null,
            none, none, st'.execution_history, st'.output_storage⟩ := by
      simp only [executePipeline]
      rw [hrun]
      simp only [hcs]
    rw [hep]
    refine ⟨rfl, ?_, ?_, ?_⟩
    · rw [hh', hlen]
    · intro r hr
      rw [hh'] at hr
      exact hsucc r hr
    · intro _
      have hmem : outKey cs.length ∈ keysOf st'.output_storage := by
        have h1 : outKey cs.length ∈ filtKeys st'.output_storage := by
          rw [hfk']
          exact List.mem_map.mpr ⟨cs.length, mem_natRange.mpr (by omega), rfl⟩
        exact (List.mem_filter.mp h1).1
      obtain ⟨v, hv⟩ := alookup_of_containsKey (containsKey_iff.mpr hmem)
      have hlenc : (c0 :: cs).length - 1 = cs.length := by simp
      rw [hlenc, hv]
      rfl

/-- Witness for C1 (amended): a two-step all-success pipeline with a
non-`output_`-prefixed alias yields success, a two-record history, and
`final_output` equal to the value under `output_1`. -/
theorem C1_amended_witness :
    (executePipeline exLib [exStepX1, ⟨some "f2", some [], none⟩] ⟨[], []⟩).1.success = true
    ∧ (executePipeline exLib [exStepX1, ⟨some "f2", some [], none⟩] ⟨[], []⟩).1.execution_history.length = 2
    ∧ alookup (executePipeline exLib [exStepX1, ⟨some "f2", some [], none⟩] ⟨[], []⟩).1.outputs (outKey 1)
        = some (executePipeline exLib [exStepX1, ⟨some "f2", some [], none⟩] ⟨[], []⟩).1.final_output := by
  have h := C1_amended exLib [exStepX1, ⟨some "f2", some [], none⟩] ⟨[], []⟩
    (by rfl) (by decide)
  exact ⟨h.1, h.2.1, h.2.2.2 (by simp)⟩

end Pipeline

namespace Pipeline

theorem runSteps_fail_spec (lib : FunctionLibraryM) :
    ∀ (steps : List Step) (i0 : Nat) (st : EngineState) (i : Nat) (e : String),
      (runSteps lib steps i0 st).1 = some (i, e) →
      (∀ c ∈ steps, aliasOK c = true) →
      filtKeys st.output_storage = (natRange 0 i0).map outKey →
      i0 ≤ i ∧ i - i0 < steps.length
      ∧ (∃ cf recs, steps.get? (i - i0) = some cf
          ∧ (runSteps lib steps i0 st).2.execution_history
              = st.execution_history ++ recs
                ++ [⟨i, cf.function, cf.inputs.getD [], .null, none, some e, false⟩]
          ∧ recs.length = i - i0 ∧ (∀ r ∈ recs, r.success = true))
      ∧ filtKeys (runSteps lib steps i0 st).2.output_storage
          = (natRange 0 i).map outKey := by
  intro steps
  induction steps with
  | nil =>
    intro i0 st i e h _ _
    rw [runSteps] at h
    cases h
  | cons c rest ih =>
    intro i0 st i e h hal hfk
    rcases hes : executeStep lib i0 c st with ⟨eo, st1⟩
    cases eo with
    | some e' =>
      have hrw : runSteps lib (c :: rest) i0 st = (some (i0, e'), st1) := by
        rw [runSteps, hes]
      rw [hrw] at h ⊢
      have h2 : (some ((i0, e') : Nat × String) : Option (Nat × String)) = some (i, e) := h
      injection h2 with h3
      rw [Prod.mk.injEq] at h3
      obtain ⟨hi, he2⟩ := h3
      subst hi
      subst he2
      have h1 : (executeStep lib i0 c st).1 = some e' := by rw [hes]
      have hstate := executeStep_fail_state h1
      rw [hes] at hstate
      refine ⟨Nat.le_refl i0, by simp, ⟨c, [], by simp, ?_, by simp, by simp⟩, ?_⟩
      · rw [hstate]
        simp
      · rw [hstate]
        simpa using hfk
    | none =>
      have h1 : (executeStep lib i0 c st).1 = none := by rw [hes]
      obtain ⟨resolved, result, _, _, hstate⟩ := executeStep_ok_state h1
      rw [hes] at hstate
      have hst1 : st1 = ⟨st.execution_history
            ++ [⟨i0, c.function, resolved, result, c.output_var, none, true⟩],
          storeWrite st.output_storage i0 c.output_var result⟩ := hstate
      have hrw : runSteps lib (c :: rest) i0 st = runSteps lib rest (i0 + 1) st1 := by
        rw [runSteps, hes]
      rw [hrw] at h ⊢
      have hfk1 : filtKeys st1.output_storage = (natRange 0 (i0 + 1)).map outKey := by
        rw [hst1]
        exact filtKeys_storeWrite (aliasOK_parts (hal c (by simp))) hfk
      obtain ⟨hle, hlt, ⟨cf, recs, hget, hh, hlen, hsucc⟩, hfk2⟩ :=
        ih (i0 + 1) st1 i e h (fun c' hc' => hal c' (by simp [hc'])) hfk1
      have hii : i - i0 = (i - (i0 + 1)) + 1 := by omega
      refine ⟨by omega, by simp; omega, ⟨cf,
        ⟨i0, c.function, resolved, result, c.output_var, none, true⟩ :: recs, ?_, ?_, ?_, ?_⟩,
        hfk2⟩
      · rw [hii]
        simpa using hget
      · rw [hh, hst1]
        simp
      · simp [hlen]
        omega
      · intro r hr
        rcases List.mem_cons.mp hr with rfl | hr
        · rfl
        · exact hsucc r hr

/-- C2 (amended): if step `i` is the first step whose input resolution or
operation invocation fails, `execute_pipeline` returns `success = false`
with `failed_step = i` and the step's error, an execution history of length
`i + 1` whose first `i` records are successes and whose last record has
`success = false` and carries the raw, unresolved inputs of step `i`, and —
the steps' aliases not beginning with `output_` — a partial store with no
`output_j` entry for any `j > i` (indeed none for `j ≥ i`). -/
theorem C2_amended (lib : FunctionLibraryM) (steps : List Step) (st : EngineState)
    (i : Nat) (e : String)
    (hfail : (runSteps lib steps 0 ⟨[], []⟩).1 = some (i, e))
    (hal : ∀ c ∈ steps, aliasOK c = true) :
    (executePipeline lib steps st).1.success = false
    ∧ (executePipeline lib steps st).1.failed_step = some (Int.ofNat i)
    ∧ (executePipeline lib steps st).1.error = some e
    ∧ (executePipeline lib steps st).1.execution_history.length = i + 1
    ∧ (∃ cf, steps.get? i = some cf
        ∧ (executePipeline lib steps st).1.execution_history.getLast?
            = some ⟨i, cf.function, cf.inputs.getD [], .null, none, some e, false⟩)
    ∧ (∀ r ∈ (executePipeline lib steps st).1.execution_history.dropLast,
        r.success = true)
    ∧ (∀ j, i < j →
        alookup (executePipeline lib steps st).1.outputs (outKey j) = none) := by
  rcases hrun : runSteps lib steps 0 ⟨[], []⟩ with ⟨eo, st'⟩
  have he : eo = some (i, e) := by rw [hrun] at hfail; exact hfail
  subst he
  have hspec := runSteps_fail_spec lib steps 0 ⟨[], []⟩ i e hfail hal (by rfl)
  rw [hrun] at hspec
  obtain ⟨_, _, ⟨cf, recs, hget, hh, hlen, hsucc⟩, hfk⟩ := hspec
  have hi0 : i - 0 = i := by omega
  rw [hi0] at hget hlen
  have hh' : st'.execution_history
      = recs ++ [⟨i, cf.function, cf.inputs.getD [], .null, none, some e, false⟩] := by
    simpa using hh
  have hep : (executePipeline lib steps st).1 = mkError e (Int.ofNat i) st' := by
    simp only [executePipeline]
    rw [hrun]
  rw [hep]
  unfold mkError
  refine ⟨rfl, rfl, rfl, ?_, ⟨cf, hget, ?_⟩, ?_, ?_⟩
  · rw [hh']
    simp [hlen]
  · rw [hh']
    simp
  · intro r hr
    rw [hh', List.dropLast_concat] at hr
    exact hsucc r hr
  · intro j hj
    exact alookup_outKey_none_of_filtKeys hfk (by omega)

/-- Witness for C2 (amended): a pipeline whose second step invokes an
unregistered operation fails at step 1 with a two-record history whose last
record is the failure. -/
theorem C2_amended_witness :
    (executePipeline exLib [exStepX1, ⟨some "g", some [], none⟩] ⟨[], []⟩).1.success = false
    ∧ (executePipeline exLib [exStepX1, ⟨some "g", some [], none⟩] ⟨[], []⟩).1.failed_step
        = some (Int.ofNat 1)
    ∧ (executePipeline exLib [exStepX1, ⟨some "g", some [], none⟩] ⟨[], []⟩).1.execution_history.length
        = 2 := by
  have h := C2_amended exLib [exStepX1, ⟨some "g", some [], none⟩] ⟨[], []⟩ 1
    "Function 'g' not found" (by rfl) (by decide)
  exact ⟨h.1, h.2.1, h.2.2.2.1⟩

end Pipeline

namespace Pipeline

theorem aliasesOf_append (l1 l2 : List Step) :
    aliasesOf (l1 ++ l2) = aliasesOf l1 ++ aliasesOf l2 := by
  simp [aliasesOf, List.filterMap_append]

theorem mem_aliasesOf_of_var {steps : List Step} {c : Step} {a : String}
    (hc : c ∈ steps) (ha : c.output_var = some a) (hne : (a == "") = false) :
    a ∈ aliasesOf steps := by
  unfold aliasesOf
  rw [List.mem_filterMap]
  refine ⟨c, hc, ?_⟩
  show (match c.output_var with
    | some a => if a == "" then none else some a
    | none => none) = some a
  rw [ha]
  show (if a == "" then none else some a) = some a
  rw [hne]
  simp

theorem aliasesOf_not_pfx {steps : List Step}
    (hal : ∀ c ∈ steps, aliasOK c = true) :
    ∀ a ∈ aliasesOf steps, leadsWith outPfx a.data = false := by
  intro a ha
  unfold aliasesOf at ha
  rw [List.mem_filterMap] at ha
  obtain ⟨c, hc, hfc⟩ := ha
  have hfc' : (match c.output_var with
      | some a => if a == "" then none else some a
      | none => none) = some a := hfc
  rcases hov : c.output_var with _ | a'
  · rw [hov] at hfc'
    cases hfc'
  · rw [hov] at hfc'
    have hfc2 : (if a' == "" then none else some a') = some a := hfc'
    rcases hae : (a' == "") with _ | _
    · rw [hae] at hfc2
      simp only [Bool.false_eq_true, if_false] at hfc2
      injection hfc2 with hfc2
      subst hfc2
      exact aliasOK_parts (hal c hc) a' hov (by simpa using hae)
    · rw [hae] at hfc2
      simp at hfc2

theorem runSteps_append (lib : FunctionLibraryM) :
    ∀ (l1 l2 : List Step) (i : Nat) (st : EngineState),
      runSteps lib (l1 ++ l2) i st
        = match runSteps lib l1 i st with
          | (none, st') => runSteps lib l2 (i + l1.length) st'
          | (some p, st') => (some p, st') := by
  intro l1
  induction l1 with
  | nil =>
    intro l2 i st
    simp [runSteps]
  | cons c rest ih =>
    intro l2 i st
    rcases hes : executeStep lib i c st with ⟨eo, st1⟩
    cases eo with
    | none =>
      have h1 : runSteps lib ((c :: rest) ++ l2) i st
          = runSteps lib (rest ++ l2) (i + 1) st1 := by
        rw [List.cons_append, runSteps, hes]
      have h2 : runSteps lib (c :: rest) i st = runSteps lib rest (i + 1) st1 := by
        rw [runSteps, hes]
      rw [h1, h2, ih]
      have harith : i + 1 + rest.length = i + (c :: rest).length := by
        simp
        omega
      rw [harith]
    | some e =>
      have h1 : runSteps lib ((c :: rest) ++ l2) i st = (some (i, e), st1) := by
        rw [List.cons_append, runSteps, hes]
      have h2 : runSteps lib (c :: rest) i st = (some (i, e), st1) := by
        rw [runSteps, hes]
      rw [h1, h2]

theorem runSteps_single_snd (lib : FunctionLibraryM) (c : Step) (i : Nat)
    (st : EngineState) :
    (runSteps lib [c] i st).2 = (executeStep lib i c st).2 := by
  rcases hes : executeStep lib i c st with ⟨eo, st1⟩
  cases eo with
  | none => rw [runSteps, hes]; rfl
  | some e => rw [runSteps, hes]

theorem stateAfter_stable {lib : FunctionLibraryM} {steps : List Step} {m : Nat}
    (hm : steps.length ≤ m) :
    stateAfter lib steps (m + 1) = stateAfter lib steps m := by
  unfold stateAfter
  rw [List.take_of_length_le hm, List.take_of_length_le (by omega)]

theorem stateAfter_succ_of_lt {lib : FunctionLibraryM} {steps : List Step} {m : Nat}
    (hm : m < steps.length) :
    stateAfter lib steps (m + 1)
      = (match runSteps lib (steps.take m) 0 ⟨[], []⟩ with
        | (none, st') =>
            runSteps lib [steps.get ⟨m, hm⟩] (0 + (steps.take m).length) st'
        | (some p, st') => (some p, st')).2 := by
  unfold stateAfter
  have htake : steps.take (m + 1) = steps.take m ++ [steps.get ⟨m, hm⟩] := by
    rw [List.take_succ, List.getElem?_eq_getElem hm]
    rfl
  rw [htake, runSteps_append]

theorem length_take_of_lt {steps : List Step} {m : Nat} (hm : m < steps.length) :
    (steps.take m).length = m := by
  simp [List.length_take]
  omega


theorem stateAfter_succ_none {lib : FunctionLibraryM} {steps : List Step} {m : Nat}
    (hm : m < steps.length) {stm : EngineState}
    (hrm : runSteps lib (steps.take m) 0 ⟨[], []⟩ = (none, stm)) :
    stateAfter lib steps (m + 1)
      = (executeStep lib m (steps.get ⟨m, hm⟩) stm).2 := by
  rw [stateAfter_succ_of_lt hm, hrm]
  show (runSteps lib [steps.get ⟨m, hm⟩] (0 + (steps.take m).length) stm).2 = _
  rw [runSteps_single_snd]
  rw [show 0 + (steps.take m).length = m from by rw [length_take_of_lt hm]; omega]

theorem stateAfter_succ_some {lib : FunctionLibraryM} {steps : List Step} {m : Nat}
    (hm : m < steps.length) {p : Nat × String} {stm : EngineState}
    (hrm : runSteps lib (steps.take m) 0 ⟨[], []⟩ = (some p, stm)) :
    stateAfter lib steps (m + 1) = stm := by
  rw [stateAfter_succ_of_lt hm, hrm]

theorem take_succ_get {steps : List Step} {m : Nat} (hm : m < steps.length) :
    steps.take (m + 1) = steps.take m ++ [steps.get ⟨m, hm⟩] := by
  rw [List.take_succ, List.getElem?_eq_getElem hm]
  rfl

theorem stateAfter_inv (lib : FunctionLibraryM) (steps : List Step)
    (hal : ∀ c ∈ steps, aliasOK c = true) :
    ∀ m,
      (∀ j, m ≤ j →
        containsKey (stateAfter lib steps m).output_storage (outKey j) = false)
      ∧ (∀ x ∈ keysOf (stateAfter lib steps m).output_storage,
          leadsWith outPfx x.data = false → x ∈ aliasesOf (steps.take m)) := by
  intro m
  induction m with
  | zero =>
    constructor
    · intro j _
      rfl
    · intro x hx _
      simp [stateAfter, runSteps, keysOf] at hx
  | succ m ih =>
    obtain ⟨ihA, ihB⟩ := ih
    have hmono : ∀ x, x ∈ aliasesOf (steps.take m) → x ∈ aliasesOf (steps.take (m + 1)) := by
      intro x hx
      rcases Nat.lt_or_ge m steps.length with hm | hm
      · rw [take_succ_get hm, aliasesOf_append]
        exact List.mem_append_left _ hx
      · rw [List.take_of_length_le (by omega), ← List.take_of_length_le hm]
        exact hx
    rcases Nat.lt_or_ge m steps.length with hm | hm
    · rcases hrm : runSteps lib (steps.take m) 0 ⟨[], []⟩ with ⟨eo, stm⟩
      have hstm : stateAfter lib steps m = stm := by
        unfold stateAfter
        rw [hrm]
      rw [hstm] at ihA ihB
      cases eo with
      | some p =>
        rw [stateAfter_succ_some hm hrm]
        exact ⟨fun j hj => ihA j (by omega), fun x hx hp => hmono x (ihB x hx hp)⟩
      | none =>
        have hsa := stateAfter_succ_none hm hrm
        rcases hes : (executeStep lib m (steps.get ⟨m, hm⟩) stm).1 with _ | e2
        · obtain ⟨resolved, result, _, _, hstate⟩ := executeStep_ok_state hes
          have hsa2 : stateAfter lib steps (m + 1)
              = ⟨stm.execution_history
                    ++ [⟨m, (steps.get ⟨m, hm⟩).function, resolved, result,
                        (steps.get ⟨m, hm⟩).output_var, none, true⟩],
                 storeWrite stm.output_storage m (steps.get ⟨m, hm⟩).output_var result⟩ := by
            rw [hsa, hstate]
          rw [hsa2]
          constructor
          · intro j hj
            rcases hc : containsKey
                (storeWrite stm.output_storage m (steps.get ⟨m, hm⟩).output_var result)
                (outKey j) with _ | _
            · rfl
            · exfalso
              have hmem := containsKey_iff.mp hc
              rcases mem_keysOf_storeWrite hmem with hmem | hxeq | ⟨a, hov, hane, hxa⟩
              · have hf := ihA j (by omega)
                have := containsKey_iff.mpr hmem
                rw [hf] at this
                cases this
              · have := outKey_inj hxeq
                omega
              · have hpfx := aliasOK_parts (hal _ (List.get_mem steps m hm)) a hov hane
                rw [← hxa, leadsWith_outPfx_outKey] at hpfx
                cases hpfx
          · intro x hx hp
            rcases mem_keysOf_storeWrite hx with hmem | hxeq | ⟨a, hov, hane, hxa⟩
            · exact hmono x (ihB x hmem hp)
            · rw [hxeq, leadsWith_outPfx_outKey] at hp
              cases hp
            · subst hxa
              have hcm : steps.get ⟨m, hm⟩ ∈ steps.take (m + 1) := by
                rw [take_succ_get hm]
                exact List.mem_append_right _ (by simp)
              exact mem_aliasesOf_of_var hcm hov (beq_eq_false_iff_ne.mpr hane)
        · have hstate := executeStep_fail_state hes
          have hsa2 : stateAfter lib steps (m + 1)
              = ⟨stm.execution_history
                    ++ [⟨m, (steps.get ⟨m, hm⟩).function,
                        (steps.get ⟨m, hm⟩).inputs.getD [], .null, none, some e2, false⟩],
                 stm.output_storage⟩ := by
            rw [hsa, hstate]
          rw [hsa2]
          exact ⟨fun j hj => ihA j (by omega), fun x hx hp => hmono x (ihB x hx hp)⟩
    · rw [stateAfter_stable hm]
      exact ⟨fun j hj => ihA j (by omega), fun x hx hp => hmono x (ihB x hx hp)⟩

end Pipeline

namespace Pipeline

/-- C6 (amended): during a single run the output store is append-only —
every binding present after `m` steps is still present, unchanged, after
any `n ≥ m` steps — provided the steps' truthy aliases are pairwise
distinct and none begins with `output_`. The two collision cases the
original claim included (a repeated alias, and an alias equal to a later
`output_<N>` key) overwrite the shared key and are exactly what the
counterexample exhibits. -/
theorem C6_amended (lib : FunctionLibraryM) (steps : List Step)
    (hal : ∀ c ∈ steps, aliasOK c = true)
    (hnd : (aliasesOf steps).Nodup) :
    ∀ m n, m ≤ n → ∀ k v,
      alookup (stateAfter lib steps m).output_storage k = some v →
      alookup (stateAfter lib steps n).output_storage k = some v := by
  have hstep : ∀ m k v,
      alookup (stateAfter lib steps m).output_storage k = some v →
      alookup (stateAfter lib steps (m + 1)).output_storage k = some v := by
    intro m k v hkv
    rcases Nat.lt_or_ge m steps.length with hm | hm
    · rcases hrm : runSteps lib (steps.take m) 0 ⟨[], []⟩ with ⟨eo, stm⟩
      have hstm : stateAfter lib steps m = stm := by
        unfold stateAfter
        rw [hrm]
      rw [hstm] at hkv
      obtain ⟨invA, invB⟩ := stateAfter_inv lib steps hal m
      rw [hstm] at invA invB
      cases eo with
      | some p =>
        rw [stateAfter_succ_some hm hrm]
        exact hkv
      | none =>
        have hsa := stateAfter_succ_none hm hrm
        rcases hes : (executeStep lib m (steps.get ⟨m, hm⟩) stm).1 with _ | e2
        · obtain ⟨resolved, result, _, _, hstate⟩ := executeStep_ok_state hes
          have hsa2 : stateAfter lib steps (m + 1)
              = ⟨stm.execution_history
                    ++ [⟨m, (steps.get ⟨m, hm⟩).function, resolved, result,
                        (steps.get ⟨m, hm⟩).output_var, none, true⟩],
                 storeWrite stm.output_storage m (steps.get ⟨m, hm⟩).output_var result⟩ := by
            rw [hsa, hstate]
          rw [hsa2]
          apply storeWrite_preserve
          · exact invA m (Nat.le_refl m)
          · intro a hov hane
            refine ⟨aliasOK_parts (hal _ (List.get_mem steps m hm)) a hov hane, ?_⟩
            rcases hc : containsKey stm.output_storage a with _ | _
            · rfl
            · exfalso
              have hmem := containsKey_iff.mp hc
              have hpfx := aliasOK_parts (hal _ (List.get_mem steps m hm)) a hov hane
              have h1 : a ∈ aliasesOf (steps.take m) := invB a hmem hpfx
              have h2 : a ∈ aliasesOf (steps.drop m) := by
                have hdrop : steps.drop m = steps.get ⟨m, hm⟩ :: steps.drop (m + 1) :=
                  List.drop_eq_getElem_cons hm
                rw [hdrop]
                exact mem_aliasesOf_of_var (List.mem_cons_self _ _) hov
                  (beq_eq_false_iff_ne.mpr hane)
              have hsplit : aliasesOf steps
                  = aliasesOf (steps.take m) ++ aliasesOf (steps.drop m) := by
                rw [← aliasesOf_append, List.take_append_drop]
              rw [hsplit] at hnd
              exact (List.disjoint_of_nodup_append hnd) h1 h2
          · exact hkv
        · have hstate := executeStep_fail_state hes
          have hsa2 : stateAfter lib steps (m + 1)
              = ⟨stm.execution_history
                    ++ [⟨m, (steps.get ⟨m, hm⟩).function,
                        (steps.get ⟨m, hm⟩).inputs.getD [], .null, none, some e2, false⟩],
                 stm.output_storage⟩ := by
            rw [hsa, hstate]
          rw [hsa2]
          exact hkv
    · rw [stateAfter_stable hm]
      exact hkv
  intro m n hmn
  induction n, hmn using Nat.le_induction with
  | base => intro k v h; exact h
  | succ n hmn ih => intro k v h; exact hstep n k v (ih k v h)

/-- Witness for C6 (amended): with distinct non-`output_` aliases `x` and
`y`, the binding `x ↦ 1` made by step 0 is still present unchanged after
step 1 has run. -/
theorem C6_amended_witness :
    alookup (stateAfter exLib [exStepX1, ⟨some "f2", some [], some "y"⟩] 2).output_storage
        "x" = some (.int 1) :=
  C6_amended exLib [exStepX1, ⟨some "f2", some [], some "y"⟩]
    (by decide) (by decide) 1 2 (by omega) "x" (.int 1) (by rfl)

end Pipeline
